import Mathlib

/-!
Verification development for the Astro documentation PDF generator
(`astro_docs_to_pdf.py`).  The Python source is shallowly embedded:
strings are modelled as `List Char` (with `String` wrappers at the edges),
the regular-expression substitutions of the source are modelled by
specialised scanning functions whose behaviour was derived by hand from
Python `re` semantics (leftmost match, greedy/lazy quantifiers, `.` not
matching newline unless DOTALL), and the two external libraries that the
source calls (`yaml.safe_load` and `markdown.markdown`) are uninterpreted
parameters of the pipeline, as the specification places them out of scope.
-/

namespace AstroPdf

/-- Python `\s` character class (`str.strip` uses the same set). -/
def wsChar (c : Char) : Bool :=
  c = ' ' || c = '\t' || c = '\n' || c = '\r' || c = '\x0b' || c = '\x0c'

/-- Python `\w` character class (ASCII range, as used by the source). -/
def wordChar (c : Char) : Bool :=
  (('a' ≤ c && c ≤ 'z') || ('A' ≤ c && c ≤ 'Z') || ('0' ≤ c && c ≤ '9') || c = '_')

/-- The `['"]` character class of the source's regexes. -/
def quoteChar (c : Char) : Bool :=
  c = '\'' || c = '"'

/-- The `[./~]` class of `re.sub(r'^[./~]+', '', path)`. -/
def relMark (c : Char) : Bool :=
  c = '.' || c = '/' || c = '~'

/-- Drop a trailing run of characters satisfying `p` (helper for strips). -/
def dropRightWhile (p : Char → Bool) (l : List Char) : List Char :=
  (l.reverse.dropWhile p).reverse

/-- Python `str.strip()` (whitespace on both ends). -/
def pyStrip (l : List Char) : List Char :=
  dropRightWhile wsChar (l.dropWhile wsChar)

/-- Python `str.strip(chars)` for an explicit character set. -/
def pyStripSet (p : Char → Bool) (l : List Char) : List Char :=
  dropRightWhile p (l.dropWhile p)

/-- Python `str.split('\n')`: note `"".split('\n') == ['']`. -/
def splitNl : List Char → List (List Char)
  | [] => [[]]
  | c :: t =>
    if c = '\n' then [] :: splitNl t
    else
      match splitNl t with
      | [] => [[c]]
      | h :: r => (c :: h) :: r

/-- Python `'\n'.join(lines)`. -/
def joinNl (ls : List (List Char)) : List Char :=
  List.intercalate ['\n'] ls

/-- Substring containment, Python's `needle in haystack`. -/
def hasSub (needle haystack : List Char) : Bool :=
  match haystack with
  | [] => needle.isEmpty
  | _ :: t => needle.isPrefixOf haystack || hasSub needle t

/-- Count occurrences of a character, Python `str.count(c)`. -/
def countChar (c : Char) (l : List Char) : Nat :=
  (l.filter (fun d => d = c)).length

/-- The `---` frontmatter delimiter of the source. -/
def fmMarker : List Char := ['-', '-', '-']

/-- One replacement step of `re.sub(r'\s+i18nReady:\s*true', '', fm)`:
match at a position starting with whitespace. -/
def tryI18n (s : List Char) : Option (List Char) :=
  if ("i18nReady:").toList.isPrefixOf (s.dropWhile wsChar) then
    if ("true").toList.isPrefixOf (((s.dropWhile wsChar).drop 10).dropWhile wsChar) then
      some ((((s.dropWhile wsChar).drop 10).dropWhile wsChar).drop 4)
    else none
  else none

theorem length_drop_le (n : Nat) (l : List Char) : (l.drop n).length ≤ l.length := by
  rw [List.length_drop]; omega

theorem tryI18n_cons_length {c : Char} {t rest : List Char} (hc : wsChar c = true)
    (h : tryI18n (c :: t) = some rest) : rest.length ≤ t.length := by
  unfold tryI18n at h
  split at h
  · split at h
    · cases h
      have hws : (List.dropWhile wsChar (c :: t)).length ≤ t.length := by
        rw [List.dropWhile_cons, if_pos hc]
        exact (List.dropWhile_sublist _).length_le
      calc (((((c :: t).dropWhile wsChar).drop 10).dropWhile wsChar).drop 4).length
          ≤ ((((c :: t).dropWhile wsChar).drop 10).dropWhile wsChar).length :=
            length_drop_le _ _
        _ ≤ (((c :: t).dropWhile wsChar).drop 10).length :=
            (List.dropWhile_sublist _).length_le
        _ ≤ ((c :: t).dropWhile wsChar).length := length_drop_le _ _
        _ ≤ t.length := hws
    · cases h
  · cases h

/-- `re.sub(r'\s+i18nReady:\s*true', '', frontmatter)` as a left-to-right
scanner.  We only try a match at positions starting with a whitespace
character, because the pattern begins with `\s+` (and the leftmost match
begins at the first whitespace character of its run). -/
def i18nSubF : Nat → List Char → List Char
  | 0, s => s
  | _ + 1, [] => []
  | fuel + 1, c :: t =>
    if wsChar c then
      match tryI18n (c :: t) with
      | some rest => i18nSubF fuel rest
      | none => c :: i18nSubF fuel t
    else c :: i18nSubF fuel t

def i18nSub (s : List Char) : List Char := i18nSubF s.length s

/-- `re.sub(r':\s*\|', ': ', frontmatter)` as a scanner: a colon followed
by optional whitespace and a pipe becomes `": "`. -/
def blockIndSubF : Nat → List Char → List Char
  | 0, s => s
  | _ + 1, [] => []
  | fuel + 1, ':' :: t =>
    (match t.dropWhile wsChar with
     | '|' :: r => ':' :: ' ' :: blockIndSubF fuel r
     | _ => ':' :: blockIndSubF fuel t)
  | fuel + 1, c :: t => c :: blockIndSubF fuel t

def blockIndSub (s : List Char) : List Char := blockIndSubF s.length s

/-- The second (effective) definition of `parse_frontmatter` in the
source: frontmatter is recognised iff the first line *stripped* equals
`---` and some later line is exactly `---`; the recognised frontmatter
text is cleaned with the two substitutions above and the body is returned
verbatim.  Otherwise `(None, content)` is returned unchanged. -/
def parseFrontmatterL (s : List Char) : Option (List Char) × List Char :=
  let lines := splitNl s
  if pyStrip (lines.headD []) = fmMarker then
    match (lines.drop 1).findIdx? (fun l => l == fmMarker) with
    | some i =>
      let fm := joinNl ((lines.drop 1).take i)
      let content := joinNl (lines.drop (i + 2))
      (some (blockIndSub (i18nSub fm)), content)
    | none => (none, s)
  else (none, s)

/-- String-level wrapper for `parse_frontmatter`. -/
def parseFrontmatter (s : String) : Option String × String :=
  let r := parseFrontmatterL s.toList
  (r.1.map List.asString, r.2.asString)

/-! ### `process_image_paths` -/

/-- The fixed base URL that all three image rewrites prepend. -/
def baseUrl : List Char := ("https://docs.astro.build/").toList

/-- `re.sub(r'^[./~]+', '', path)`: drop leading `.`/`/`/`~` characters. -/
def stripRelMarks (p : List Char) : List Char := p.dropWhile relMark

/-- Consume a nonempty whitespace run (`\s+`); greedy and deterministic
because what follows in every use site cannot begin with whitespace. -/
def eatWs1 (t : List Char) : Option (List Char) :=
  if (t.takeWhile wsChar).isEmpty then none else some (t.dropWhile wsChar)

theorem eatWs1_length {t r : List Char} (h : eatWs1 t = some r) :
    r.length ≤ t.length := by
  unfold eatWs1 at h
  split at h
  · cases h
  · cases h
    exact (List.dropWhile_sublist _).length_le

/-- Consume a nonempty word-character run (`(\w+)`), returning it. -/
def eatWord1 (t : List Char) : Option (List Char × List Char) :=
  if (t.takeWhile wordChar).isEmpty then none
  else some (t.takeWhile wordChar, t.dropWhile wordChar)

theorem eatWord1_length {t w r : List Char} (h : eatWord1 t = some (w, r)) :
    r.length ≤ t.length := by
  unfold eatWord1 at h
  split at h
  · cases h
  · cases h
    exact (List.dropWhile_sublist _).length_le

/-- Consume an exact literal. -/
def eatLit (lit t : List Char) : Option (List Char) :=
  if lit.isPrefixOf t then some (t.drop lit.length) else none

theorem eatLit_length {lit t r : List Char} (h : eatLit lit t = some r) :
    r.length ≤ t.length := by
  unfold eatLit at h
  split at h
  · cases h
    exact length_drop_le _ _
  · cases h

/-- Consume a nonempty run of characters on which `p` is false, then one
further (arbitrary) character; models `([^X]+)[X']`-shaped pattern tails
where the closing class is a superset of the stop set. -/
def eatBody1 (p : Char → Bool) (t : List Char) : Option (List Char × List Char) :=
  if (t.takeWhile (fun c => !p c)).isEmpty then none
  else
    match t.dropWhile (fun c => !p c) with
    | _ :: r => some (t.takeWhile (fun c => !p c), r)
    | [] => none

theorem eatBody1_length {p : Char → Bool} {t b r : List Char}
    (h : eatBody1 p t = some (b, r)) : r.length < t.length := by
  unfold eatBody1 at h
  split at h
  · cases h
  · split at h
    · rename_i heq
      cases h
      have : (t.dropWhile (fun c => !p c)).length ≤ t.length :=
        (List.dropWhile_sublist _).length_le
      rw [heq] at this
      simp only [List.length_cons] at this
      omega
    · cases h

/-- Consume a possibly-empty run of characters on which `p` is false,
then one further character; models `[^X]*X`. -/
def eatThrough (p : Char → Bool) (t : List Char) : Option (List Char) :=
  match t.dropWhile (fun c => !p c) with
  | _ :: r => some r
  | [] => none

theorem eatThrough_length {p : Char → Bool} {t r : List Char}
    (h : eatThrough p t = some r) : r.length < t.length := by
  unfold eatThrough at h
  split at h
  · rename_i heq
    cases h
    have : (t.dropWhile (fun c => !p c)).length ≤ t.length :=
      (List.dropWhile_sublist _).length_le
    rw [heq] at this
    simp only [List.length_cons] at this
    omega
  · cases h

/-- Matcher for the tail of the MDX import pattern
`import\s+(\w+)\s+from\s+['"]([^'"]+)['"]`, applied after the literal
`import`.  All quantifiers in this pattern are effectively deterministic
because adjacent character classes are disjoint.  The closing quote may be
either quote character (the source's class `['"]` does not backreference
the opening quote). -/
def matchImportTail (t : List Char) : Option (List Char × List Char × List Char) :=
  (eatWs1 t).bind fun t1 =>
  (eatWord1 t1).bind fun nt =>
  (eatWs1 nt.2).bind fun t2 =>
  (eatLit (("from").toList) t2).bind fun t3 =>
  (eatWs1 t3).bind fun t4 =>
  match t4 with
  | q :: t5 =>
    if quoteChar q then
      (eatBody1 quoteChar t5).bind fun bt =>
      some (nt.1, bt.1, bt.2)
    else none
  | [] => none

theorem matchImportTail_length {t n p rest : List Char}
    (h : matchImportTail t = some (n, p, rest)) : rest.length < t.length := by
  unfold matchImportTail at h
  simp only [Option.bind_eq_some] at h
  obtain ⟨t1, h1, nt, h2, t2, h3, t3, h4, t4, h5, h⟩ := h
  split at h
  · rename_i q t5
    split at h
    · simp only [Option.bind_eq_some] at h
      obtain ⟨bt, h6, h7⟩ := h
      cases h7
      have l1 := eatWs1_length h1
      have l2 := @eatWord1_length _ nt.1 nt.2 (by rw [← h2])
      have l3 := eatWs1_length h3
      have l4 := eatLit_length h4
      have l5 := eatWs1_length h5
      have l6 := @eatBody1_length _ _ bt.1 bt.2 (by rw [← h6])
      simp only [List.length_cons] at *
      omega
    · cases h
  · cases h

/-- `re.sub` for the MDX import pattern (first pass of
`process_image_paths`): every match `import X from "path"` becomes
`![X](https://docs.astro.build/<path stripped of leading ./~ marks>)`. -/
def mdxSubF : Nat → List Char → List Char
  | 0, s => s
  | _ + 1, [] => []
  | fuel + 1, c :: t =>
    if ("import").toList.isPrefixOf (c :: t) then
      match matchImportTail ((c :: t).drop 6) with
      | some (name, path, rest) =>
        ('!' :: '[' :: name) ++ (']' :: '(' :: baseUrl) ++
          stripRelMarks path ++ ')' :: mdxSubF fuel rest
      | none => c :: mdxSubF fuel t
    else c :: mdxSubF fuel t

def mdxSub (s : List Char) : List Char := mdxSubF s.length s

/-- Lazy scan for the closing `)` of the markdown-image pattern: the
`.*?\)` part (no newline allowed, first `)` wins). -/
def scanClose (acc s : List Char) : Option (List Char × List Char) :=
  match s with
  | [] => none
  | ')' :: r => some (acc.reverse, r)
  | '\n' :: _ => none
  | c :: r => scanClose (c :: acc) r

theorem scanClose_length {acc s mid rest : List Char}
    (h : scanClose acc s = some (mid, rest)) : rest.length < s.length := by
  induction s generalizing acc with
  | nil => simp [scanClose] at h
  | cons c r ih =>
    by_cases hc : c = ')'
    · subst hc
      simp only [scanClose] at h
      cases h
      simp
    · by_cases hn : c = '\n'
      · subst hn
        simp only [scanClose] at h
        exact Option.noConfusion h
      · have hstep : scanClose acc (c :: r) = scanClose (c :: acc) r := by
          conv_lhs => unfold scanClose
          rcases r with _ | ⟨d, r'⟩ <;> simp_all
        rw [hstep] at h
        have := ih h
        simp only [List.length_cons]
        omega

/-- The `([^http].*?)\)` part of the markdown-image pattern: the first
path character must not be `h`, `t` or `p` (Python's `[^http]` is a
character class, not a string test), then a lazy scan to the first `)`. -/
def tryMdPath (t : List Char) : Option (List Char × List Char) :=
  match t with
  | [] => none
  | c :: r =>
    if c = 'h' || c = 't' || c = 'p' then none
    else
      match scanClose [] r with
      | some (mid, rest) => some (c :: mid, rest)
      | none => none

theorem tryMdPath_length {t p rest : List Char}
    (h : tryMdPath t = some (p, rest)) : rest.length < t.length := by
  unfold tryMdPath at h
  split at h
  · cases h
  · split at h
    · cases h
    · split at h
      · rename_i heq
        cases h
        have := scanClose_length heq
        simp only [List.length_cons]
        omega
      · cases h

/-- Backtracking search of the lazy `(.*?)\]\(` alt-text part: try each
`](` occurrence in turn (the alt text cannot cross a newline), accepting
the first one whose following path matches `([^http].*?)\)`. -/
def findAltPath (acc s : List Char) : Option (List Char × List Char × List Char) :=
  match s with
  | ']' :: '(' :: t =>
    match tryMdPath t with
    | some (p, rest) => some (acc.reverse, p, rest)
    | none => findAltPath (']' :: acc) ('(' :: t)
  | '\n' :: _ => none
  | c :: t => findAltPath (c :: acc) t
  | [] => none

theorem findAltPath_length {acc s alt p rest : List Char}
    (h : findAltPath acc s = some (alt, p, rest)) : rest.length < s.length := by
  induction acc, s using findAltPath.induct with
  | case1 acc t p' rest' heq =>
    simp only [findAltPath, heq] at h
    cases h
    have := tryMdPath_length heq
    simp only [List.length_cons]
    omega
  | case2 acc t heq ih =>
    simp only [findAltPath, heq] at h
    have := ih h
    simp only [List.length_cons] at *
    omega
  | case3 acc t => simp [findAltPath] at h
  | case4 acc c t hne hnl ih =>
    have hstep : findAltPath acc (c :: t) = findAltPath (c :: acc) t := by
      conv_lhs => unfold findAltPath
      rcases t with _ | ⟨d, t'⟩ <;> simp_all
    rw [hstep] at h
    have := ih h
    simp only [List.length_cons]
    omega
  | case5 acc => simp [findAltPath] at h

/-- `re.sub` for the markdown-image pattern
`!\[(.*?)\]\(([^http].*?)\)` (second pass of `process_image_paths`). -/
def mdImageSubF : Nat → List Char → List Char
  | 0, s => s
  | _ + 1, [] => []
  | fuel + 1, c :: t =>
    if ("![").toList.isPrefixOf (c :: t) then
      match findAltPath [] ((c :: t).drop 2) with
      | some (alt, p, rest) =>
        ('!' :: '[' :: alt) ++ (']' :: '(' :: baseUrl) ++
          stripRelMarks p ++ ')' :: mdImageSubF fuel rest
      | none => c :: mdImageSubF fuel t
    else c :: mdImageSubF fuel t

def mdImageSub (s : List Char) : List Char := mdImageSubF s.length s

/-- `{`/`}` as a character class, for Python `strip('{}')`. -/
def braceChar (c : Char) : Bool :=
  c = '\x7b' || c = '\x7d'

/-- The literal `src={` of the component pattern. -/
def componentSrcLit : List Char := ['s', 'r', 'c', '=', '\x7b']

/-- The literal `alt="` of the component pattern. -/
def componentAltLit : List Char := ['a', 'l', 't', '=', '"']

/-- Matcher for the tail of the Astro component pattern
`<Image\s+src={([^}]+)}\s+alt="([^"]+)"[^>]*>`, applied after the
literal `<Image`. -/
def matchComponentTail (t : List Char) : Option (List Char × List Char × List Char) :=
  (eatWs1 t).bind fun t1 =>
  (eatLit componentSrcLit t1).bind fun t2 =>
  (eatBody1 (fun c => c = '\x7d') t2).bind fun st =>
  (eatWs1 st.2).bind fun t3 =>
  (eatLit componentAltLit t3).bind fun t4 =>
  (eatBody1 (fun c => c = '"') t4).bind fun at_ =>
  (eatThrough (fun c => c = '>') at_.2).bind fun t5 =>
  some (st.1, at_.1, t5)

theorem matchComponentTail_length {t src alt rest : List Char}
    (h : matchComponentTail t = some (src, alt, rest)) : rest.length < t.length := by
  unfold matchComponentTail at h
  simp only [Option.bind_eq_some] at h
  obtain ⟨t1, h1, t2, h2, st, h3, t3, h4, t4, h5, at_, h6, t5, h7, h8⟩ := h
  cases h8
  have l1 := eatWs1_length h1
  have l2 := eatLit_length h2
  have l3 := @eatBody1_length _ _ st.1 st.2 (by rw [← h3])
  have l4 := eatWs1_length h4
  have l5 := eatLit_length h5
  have l6 := @eatBody1_length _ _ at_.1 at_.2 (by rw [← h6])
  have l7 := eatThrough_length h7
  omega

/-- `re.sub` for the Astro `<Image ...>` component pattern (third pass of
`process_image_paths`).  The captured `src` is stripped of braces and
quotes (`.strip('{}').strip('"\'')`) before the URL rewrite. -/
def componentSubF : Nat → List Char → List Char
  | 0, s => s
  | _ + 1, [] => []
  | fuel + 1, c :: t =>
    if ("<Image").toList.isPrefixOf (c :: t) then
      match matchComponentTail ((c :: t).drop 6) with
      | some (srcRaw, alt, rest) =>
        ('!' :: '[' :: alt) ++ (']' :: '(' :: baseUrl) ++
          stripRelMarks (pyStripSet quoteChar (pyStripSet braceChar srcRaw)) ++
          ')' :: componentSubF fuel rest
      | none => c :: componentSubF fuel t
    else c :: componentSubF fuel t

def componentSub (s : List Char) : List Char := componentSubF s.length s

/-- `process_image_paths`: the three passes in source order (MDX imports,
then markdown images, then `<Image>` components). -/
def processImagePathsL (s : List Char) : List Char :=
  componentSub (mdImageSub (mdxSub s))

/-- String-level wrapper for `process_image_paths`. -/
def processImagePaths (s : String) : String :=
  (processImagePathsL s.toList).asString


/-! ### `preprocess_code_blocks` -/

/-- Lazy scan to the first triple-backtick (the `(.*?)` body of the code
block pattern, with DOTALL, terminated by the closing fence). -/
def findTriple (acc s : List Char) : Option (List Char × List Char) :=
  match s with
  | '`' :: '`' :: '`' :: r => some (acc.reverse, r)
  | c :: r => findTriple (c :: acc) r
  | [] => none

theorem findTriple_length {acc s body rest : List Char}
    (h : findTriple acc s = some (body, rest)) : rest.length < s.length := by
  induction acc, s using findTriple.induct with
  | case1 acc r =>
    simp only [findTriple] at h
    cases h
    simp only [List.length_cons]
    omega
  | case2 acc c r hne ih =>
    have hstep : findTriple acc (c :: r) = findTriple (c :: acc) r := by
      conv_lhs => unfold findTriple
      rcases r with _ | ⟨d, r'⟩
      · simp_all
      · rcases r' with _ | ⟨e, r''⟩ <;> simp_all
    rw [hstep] at h
    have := ih h
    simp only [List.length_cons]
    omega
  | case3 acc => simp [findTriple] at h

/-- Matcher for the tail of the fenced-code-block pattern
` ```(?:(\w+))?\s*(?:\{([^}]*)\})?\s*(.*?)``` ` (DOTALL), applied after
the opening fence.  Returns `(language?, attributes?, body, rest)`.  If a
brace group is present but no closing fence follows it, the regex engine
backtracks and retries with the optional brace group skipped, which the
fallback branches reproduce. -/
def matchCodeTail (t : List Char) :
    Option (Option (List Char) × Option (List Char) × List Char × List Char) :=
  let lang := t.takeWhile wordChar
  let langOpt := if lang.isEmpty then none else some lang
  let t2 := (t.dropWhile wordChar).dropWhile wsChar
  let fallback :=
    match findTriple [] t2 with
    | some (body, rest) => some (langOpt, (none : Option (List Char)), body, rest)
    | none => none
  match t2 with
  | '\x7b' :: u =>
    match u.dropWhile (fun c => c ≠ '\x7d') with
    | _ :: t3 =>
      match findTriple [] (t3.dropWhile wsChar) with
      | some (body, rest) =>
        some (langOpt, some (u.takeWhile (fun c => c ≠ '\x7d')), body, rest)
      | none => fallback
    | [] => fallback
  | _ => fallback

theorem matchCodeTail_length {t : List Char} {lo ao : Option (List Char)}
    {body rest : List Char} (h : matchCodeTail t = some (lo, ao, body, rest)) :
    rest.length < t.length + 3 := by
  have tle : ((t.dropWhile wordChar).dropWhile wsChar).length ≤ t.length :=
    le_trans (List.dropWhile_sublist _).length_le (List.dropWhile_sublist _).length_le
  simp only [matchCodeTail] at h
  split at h
  · rename_i u hu
    split at h
    · rename_i c t3 h3
      split at h
      · rename_i bodyr restr hft
        cases h
        have l1 := findTriple_length hft
        have l2 : (t3.dropWhile wsChar).length ≤ t3.length :=
          (List.dropWhile_sublist _).length_le
        have l3 : (u.dropWhile (fun c => c ≠ '\x7d')).length ≤ u.length :=
          (List.dropWhile_sublist _).length_le
        rw [h3] at l3
        simp only [List.length_cons] at l3
        rw [hu] at tle
        simp only [List.length_cons] at tle
        omega
      · -- fallback inside the brace branch
        split at h
        · rename_i bodyr restr hft
          cases h
          have := findTriple_length hft
          omega
        · cases h
    · split at h
      · rename_i bodyr restr hft
        cases h
        have := findTriple_length hft
        omega
      · cases h
  · split at h
    · rename_i bodyr restr hft
      cases h
      have := findTriple_length hft
      omega
    · cases h

/-- `re.search(r'title="([^"]+)"', attributes)`: first quoted title
attribute in the brace-attribute string, `''` when absent. -/
def findTitleAttr (s : List Char) : List Char :=
  match s with
  | 't' :: 'i' :: 't' :: 'l' :: 'e' :: '=' :: '"' :: r =>
    if (r.takeWhile (fun c => c ≠ '"')).isEmpty then
      findTitleAttr ('i' :: 't' :: 'l' :: 'e' :: '=' :: '"' :: r)
    else
      match r.dropWhile (fun c => c ≠ '"') with
      | _ :: _ => r.takeWhile (fun c => c ≠ '"')
      | [] => findTitleAttr ('i' :: 't' :: 'l' :: 'e' :: '=' :: '"' :: r)
  | _ :: r => findTitleAttr r
  | [] => []

/-- The replacement string of `preprocess_code_blocks`: optional header
(`title` and/or `(language)`), then the fence with trimmed body. -/
def codeReplace (langOpt attrsOpt : Option (List Char)) (body : List Char) : List Char :=
  let language := langOpt.getD []
  let title := findTitleAttr (attrsOpt.getD [])
  let parts := (if title.isEmpty then [] else [title]) ++
    (if language.isEmpty then [] else [('(' :: language) ++ [')']])
  let headerHtml :=
    if parts.isEmpty then [] else
      ("<div class=\"code-header\"><i>").toList ++
        List.intercalate [' '] parts ++ ("</i></div>").toList
  headerHtml ++ '\n' :: ('`' :: '`' :: '`' :: language) ++
    '\n' :: pyStrip body ++ ['\n', '`', '`', '`']

/-- `re.sub` for the fenced-code-block pattern (`preprocess_code_blocks`). -/
def codeSubF : Nat → List Char → List Char
  | 0, s => s
  | _ + 1, [] => []
  | fuel + 1, '`' :: '`' :: '`' :: t =>
    (match matchCodeTail t with
     | some (langOpt, attrsOpt, body, rest) =>
       codeReplace langOpt attrsOpt body ++ codeSubF fuel rest
     | none => '`' :: codeSubF fuel ('`' :: '`' :: t))
  | fuel + 1, c :: t => c :: codeSubF fuel t

def codeSub (s : List Char) : List Char := codeSubF s.length s

/-- `preprocess_code_blocks` on strings. -/
def preprocessCodeBlocks (s : String) : String :=
  (codeSub s.toList).asString

/-! ### `safe_load_frontmatter` -/

/-- Can `\s*$` (with `re.MULTILINE`) succeed here: the whitespace run
either contains a newline or extends to the end of the string. -/
def wsToNl : List Char → Bool
  | [] => true
  | c :: t => if c = '\n' then true else if wsChar c then wsToNl t else false

/-- First alternative `['"]?\s*$` of the value-terminating group. -/
def alt1At : List Char → Bool
  | [] => true
  | c :: t => if quoteChar c then wsToNl t else wsToNl (c :: t)

/-- Core of the second alternative: `\s+\w+:`. -/
def alt2core (s : List Char) : Bool :=
  if (s.takeWhile wsChar).isEmpty then false
  else
    if ((s.dropWhile wsChar).takeWhile wordChar).isEmpty then false
    else
      match (s.dropWhile wsChar).dropWhile wordChar with
      | ':' :: _ => true
      | _ => false

/-- Second alternative `['"]?\s+\w+:` of the value-terminating group. -/
def alt2At : List Char → Bool
  | [] => false
  | c :: t => if quoteChar c then (alt2core t || alt2core (c :: t)) else alt2core (c :: t)

/-- The terminating group `(?:['"]?\s*$|['"]?\s+\w+:)` can match here.
It always succeeds at a newline or at the end of the string, so the
enclosing search never fails once `key:` has been found. -/
def dAt (s : List Char) : Bool := alt1At s || alt2At s

/-- The lazy `(.*?)` of the title/description extraction: grow the
captured value until the terminating group matches. -/
def valueLazy (acc s : List Char) : List Char :=
  match s with
  | [] => acc.reverse
  | c :: t => if dAt (c :: t) then acc.reverse else valueLazy (c :: acc) t

/-- After `key:`: skip `\s*` (greedy), an optional opening quote, then
capture lazily. -/
def extractAfterKey (s : List Char) : List Char :=
  match s.dropWhile wsChar with
  | c :: t => if quoteChar c then valueLazy [] t else valueLazy [] (c :: t)
  | [] => []

/-- Leftmost occurrence of `key` (`re.search` with a literal prefix):
returns the suffix following it. -/
def findKeySuffix (key : List Char) (s : List Char) : Option (List Char) :=
  if key.isPrefixOf s then some (s.drop key.length)
  else
    match s with
    | _ :: t => findKeySuffix key t
    | [] => none

/-- Python `.strip(' \'"')`. -/
def stripQuoteSp (l : List Char) : List Char :=
  pyStripSet (fun c => c = ' ' || c = '\'' || c = '"') l

/-- Metadata mapping recovered from frontmatter: an insertion-ordered
association list, like a Python `dict`. -/
abbrev Meta := List (String × String)

/-- Python `dict` assignment: overwrite in place or append. -/
def dictInsert (m : Meta) (k v : String) : Meta :=
  if m.any (fun kv => kv.1 = k) then
    m.map (fun kv => if kv.1 = k then (k, v) else kv)
  else m ++ [(k, v)]

/-- Python `dict.update`. -/
def dictUpdate (m : Meta) (d : Meta) : Meta :=
  d.foldl (fun acc kv => dictInsert acc kv.1 kv.2) m

/-- Python `dict.get`. -/
def dictGet (m : Meta) (k : String) : Option String :=
  (m.find? (fun kv => kv.1 = k)).map (fun kv => kv.2)

/-- The three substrings whose presence drops a frontmatter line. -/
def skipKeys : List (List Char) :=
  [("githubIntegrationURL:").toList, ("label:").toList, ("maxHeadingLevel:").toList]

/-- Python `str.endswith("'")` (false on the empty string). -/
def endsWithChar (c : Char) (l : List Char) : Bool :=
  l.getLast? == some c

/-- The line-filtering rules of `safe_load_frontmatter`: noisy keys are
dropped, truncated URL-bearing or unterminated quoted values are dropped,
and a line without a colon is dropped (the source appends lines only
inside the `if ':' in line` branch). -/
def lineKept (line : List Char) : Bool :=
  if skipKeys.any (fun k => hasSub k line) then false
  else if line.contains ':' then
    let value := (line.dropWhile (fun c => c ≠ ':')).drop 1
    if hasSub (("http").toList) value && value.contains '\'' &&
        !(endsWithChar '\'' value) then false
    else if countChar '\'' value = 1 || countChar '"' value = 1 then false
    else true
  else false

/-- `safe_load_frontmatter`, with `yaml.safe_load` as an uninterpreted
parameter: `yaml c = some d` models a successful parse to a dictionary of
scalars, `none` models a parse failure or a non-`dict` result (both are
ignored by the source).  Regex-extracted `title`/`description` seed the
metadata; a successful structured parse overrides them. -/
def safeLoadFrontmatterL (yaml : String → Option Meta) (fm : List Char) : Option Meta :=
  if fm.isEmpty then none
  else
    let m0 : Meta :=
      (match findKeySuffix (("title:").toList) fm with
       | some suf => [(("title" : String), (stripQuoteSp (extractAfterKey suf)).asString)]
       | none => []) ++
      (match findKeySuffix (("description:").toList) fm with
       | some suf => [(("description" : String), (stripQuoteSp (extractAfterKey suf)).asString)]
       | none => [])
    let cleaned := joinNl ((splitNl fm).filter lineKept)
    let m :=
      match yaml cleaned.asString with
      | some d => dictUpdate m0 d
      | none => m0
    if m.isEmpty then none else some m

/-! ### `get_files_sorted` -/

/-- A filesystem path, as its list of components (`/`-separated in the
source's strings; components are assumed not to contain `/`). -/
abbrev FPath := List String

/-- The fixed exclusion set of `get_files_sorted`. -/
def excludedDirs : List String :=
  ["node_modules", ".git", "_internal", "dist", "temp", "__pycache__"]

/-- `file.endswith(('.md', '.mdx'))`. -/
def docExt (name : String) : Bool :=
  (".md").toList.isSuffixOf name.toList || (".mdx").toList.isSuffixOf name.toList

/-- `d.startswith('_')`. -/
def startsUnderscore (s : String) : Bool :=
  match s.toList with
  | c :: _ => c = '_'
  | [] => false

/-- Which walked files survive `get_files_sorted`'s filtering: document
extension, no excluded component anywhere in the path (the source checks
`Path(full_path).parts` against the exclusion set), and no
underscore-prefixed directory below the walk root (the source prunes such
directories during `os.walk`). -/
def keepFile (root : FPath) (f : FPath) : Bool :=
  (match f.getLast? with
   | some name => docExt name
   | none => false) &&
  f.all (fun part => !excludedDirs.contains part) &&
  ((f.drop root.length).dropLast).all (fun d => !startsUnderscore d)

/-- `os.path.dirname` as a string (components joined by `/`). -/
def dirString (f : FPath) : String :=
  String.intercalate ("/") f.dropLast

/-- The source's sort key
`f"{dir_path}/{'0' if is_index else '1'}{file}"`, where `is_index` is
`file == 'index.md'` (note: `.md` only, not `.mdx`). -/
def sortKeyOf (f : FPath) : List Char :=
  (dirString f).toList ++ '/' ::
    (if f.getLast? == some ("index.md") then '0' else '1') ::
    ((f.getLast?).getD ("")).toList

/-- Lexicographic comparison of sort keys (Python string `<=`). -/
def keyLe : List Char → List Char → Bool
  | [], _ => true
  | _ :: _, [] => false
  | a :: as, b :: bs => if a < b then true else if b < a then false else keyLe as bs

/-- The sort relation of `get_files_sorted`: compare key strings. -/
def pathLe (a b : FPath) : Prop := keyLe (sortKeyOf a) (sortKeyOf b) = true

instance : DecidableRel pathLe := fun a b =>
  decidable_of_iff (keyLe (sortKeyOf a) (sortKeyOf b) = true) Iff.rfl

theorem keyLe_total (a b : List Char) : keyLe a b = true ∨ keyLe b a = true := by
  induction a generalizing b with
  | nil => left; rfl
  | cons x xs ih =>
    cases b with
    | nil => right; rfl
    | cons y ys =>
      by_cases hxy : x < y
      · left; simp [keyLe, hxy]
      · by_cases hyx : y < x
        · right; simp [keyLe, hyx, hxy]
        · rcases ih ys with h | h
          · left; simp [keyLe, hxy, hyx, h]
          · right; simp [keyLe, hxy, hyx, h]

theorem keyLe_trans {a b c : List Char} (h1 : keyLe a b = true)
    (h2 : keyLe b c = true) : keyLe a c = true := by
  induction a generalizing b c with
  | nil => rfl
  | cons x xs ih =>
    cases b with
    | nil => simp [keyLe] at h1
    | cons y ys =>
      cases c with
      | nil => simp [keyLe] at h2
      | cons z zs =>
        simp only [keyLe] at h1 h2 ⊢
        by_cases hxy : x < y <;> by_cases hyz : y < z
        · have hxz : x < z := lt_trans hxy hyz
          simp [hxz]
        · simp only [if_neg hyz] at h2
          by_cases hzy : z < y
          · simp [hzy] at h2
          · have hyez : y = z := le_antisymm (not_lt.mp hzy) (not_lt.mp hyz)
            subst hyez
            simp [hxy]
        · simp only [if_neg hxy] at h1
          by_cases hyx : y < x
          · simp [hyx] at h1
          · have hxey : x = y := le_antisymm (not_lt.mp hyx) (not_lt.mp hxy)
            subst hxey
            simp [hyz]
        · simp only [if_neg hxy] at h1
          simp only [if_neg hyz] at h2
          by_cases hyx : y < x
          · simp [hyx] at h1
          · by_cases hzy : z < y
            · simp [hzy] at h2
            · have hxey : x = y := le_antisymm (not_lt.mp hyx) (not_lt.mp hxy)
              have hyez : y = z := le_antisymm (not_lt.mp hzy) (not_lt.mp hyz)
              subst hxey; subst hyez
              simp only [if_neg (lt_irrefl x)] at h1 h2 ⊢
              exact ih h1 h2

instance : IsTotal FPath pathLe :=
  ⟨fun a b => keyLe_total (sortKeyOf a) (sortKeyOf b)⟩

instance : IsTrans FPath pathLe :=
  ⟨fun _ _ _ h1 h2 => keyLe_trans h1 h2⟩

/-- `get_files_sorted`, taking the `os.walk` enumeration of files below
the root as input: filter, then stable-sort by the key string (the source
raises a `DocumentationProcessingError` when the result is empty; the
empty list represents that case here). -/
def getFilesSorted (root : FPath) (walked : List FPath) : List FPath :=
  List.insertionSort pathLe (walked.filter (keepFile root))

/-! ### `process_files` -/

/-- The page-separator emitted between pages. -/
def pageBreakStr : String := "<div class=\"page-break\"></div>"

/-- The TOC depth of a file: separators in the path relative to the
documentation root (`rel_path.count(os.sep)`), with an `index.md` not at
the root counted one level shallower. -/
def depthOf (root : FPath) (f : FPath) : Nat :=
  let depth0 := (f.drop root.length).length - 1
  if f.getLast? == some ("index.md") && decide (0 < depth0) then depth0 - 1
  else depth0

/-- Python `str.title()` (ASCII approximation: a letter is uppercased
when not preceded by a letter, lowercased otherwise). -/
def pyTitleGo (prevAlpha : Bool) : List Char → List Char
  | [] => []
  | c :: t =>
    if c.isAlpha then
      (if prevAlpha then c.toLower else c.toUpper) :: pyTitleGo true t
    else c :: pyTitleGo false t

def pyTitle (s : List Char) : List Char := pyTitleGo false s

/-- `pathlib.Path(...).stem`: the final component minus its last suffix. -/
def stemOf (cs : List Char) : List Char :=
  match cs.reverse.dropWhile (fun c => c ≠ '.') with
  | '.' :: r => if r.isEmpty then cs else r.reverse
  | _ => cs

/-- The loop state of `process_files`: the table-of-contents lines, the
emitted page fragments (`html_all_pages_content`), and the numbering
counters.  `numTrace` is a ghost field recording each emitted
`toc_numbering` value (as its counter list) for the statements below; it
does not influence the computation. -/
structure PState where
  toc : List String
  pages : List String
  numbering : List Nat
  numTrace : List (List Nat)
deriving Repr, DecidableEq

/-- `numbering = [0]` before the loop. -/
def initPState : PState := ⟨[], [], [0], []⟩

/-- The numbering update of `process_files`: extend with zeros while
`len(numbering) <= depth`, increment index `depth`, zero every index
greater than `depth`. -/
def bump (n : List Nat) (depth : Nat) : List Nat :=
  let n1 := n ++ List.replicate (depth + 1 - n.length) 0
  let n2 := n1.set depth (n1.getD depth 0 + 1)
  n2.take (depth + 1) ++ List.replicate (n2.length - (depth + 1)) 0

/-- `'.'.join(map(str, numbering[:depth + 1]))`. -/
def numberingString (l : List Nat) : String :=
  String.intercalate (".") (l.map toString)

/-- One iteration of the `process_files` loop on one file.  `yaml` and
`mdRender` are the uninterpreted `yaml.safe_load` and `markdown.markdown`
library calls; `fs` maps a path to the file's content (the source's
`open(...).read()`).  A file whose parsed frontmatter is absent, empty,
or yields no metadata leaves the state unchanged. -/
def stepFile (yaml : String → Option Meta) (mdRender : String → String)
    (fs : FPath → String) (root : FPath) (total index : Nat) (f : FPath)
    (st : PState) : PState :=
  let md1 := processImagePaths (fs f)
  let md2 := preprocessCodeBlocks md1
  let pr := parseFrontmatter md2
  match pr.1 with
  | none => st
  | some fmText =>
    if fmText.isEmpty then st
    else
      match safeLoadFrontmatterL yaml fmText.toList with
      | none => st
      | some data =>
        let rel := f.drop root.length
        let depth := depthOf root f
        let indent := String.join (List.replicate (5 * depth) ("&nbsp;"))
        let numbering := bump st.numbering depth
        let tocNums := numbering.take (depth + 1)
        let tocNumbering := numberingString tocNums
        let tocTitle :=
          (dictGet data ("title")).getD
            ((pyTitle (stemOf (((f.getLast?).getD ("")).toList))).asString)
        let tocFull := tocNumbering ++ " - " ++ tocTitle
        let tocEntry :=
          indent ++ "<a href='#" ++ tocFull ++ "'>" ++ tocFull ++ "</a><br/>"
        let relPosix := String.intercalate ("/") rel
        let pageHead := "<h1 id='" ++ tocFull ++ "'>" ++ tocFull ++ "</h1>"
        let pathDiv :=
          "<div class='doc-path'><p>Documentation path: " ++ relPosix ++ "</p></div>"
        let descLines :=
          match dictGet data ("description") with
          | some d => ["<p><strong>Description:</strong> " ++ d ++ "</p>", "<br/>"]
          | none => []
        let page :=
          String.intercalate ("\n") ([pageHead, pathDiv] ++ descLines ++ [mdRender pr.2])
        let withBreak := if index < total - 1 then [page, pageBreakStr] else [page]
        { toc := st.toc ++ [tocEntry]
          pages := st.pages ++ withBreak
          numbering := numbering
          numTrace := st.numTrace ++ [tocNums] }

/-- The `for index, file_path in enumerate(files)` loop of
`process_files`. -/
def processLoop (yaml : String → Option Meta) (mdRender : String → String)
    (fs : FPath → String) (root : FPath) (total : Nat) :
    Nat → List FPath → PState → PState
  | _, [], st => st
  | index, f :: rest, st =>
    processLoop yaml mdRender fs root total (index + 1) rest
      (stepFile yaml mdRender fs root total index f st)

/-- `process_files` up to (and excluding) the final HTML concatenation:
the loop over all files from the initial state.  The final string
assembly and the `NoContent` error on an empty result are not needed by
the statements below. -/
def processFilesState (yaml : String → Option Meta) (mdRender : String → String)
    (fs : FPath → String) (root : FPath) (files : List FPath) : PState :=
  processLoop yaml mdRender fs root files.length 0 files initPState

/-! ### Numbering lemmas (for claim C7) -/

theorem take_succ_set (l : List Nat) (i : Nat) (v : Nat) (h : i < l.length) :
    (l.set i v).take (i + 1) = l.take i ++ [v] := by
  induction l generalizing i with
  | nil => simp at h
  | cons a t ih =>
    cases i with
    | zero => simp
    | succ j =>
      simp only [List.set, List.take_succ_cons, List.take, List.cons_append]
      rw [ih j (by simpa using h)]

theorem bump_length (n : List Nat) (d : Nat) :
    (bump n d).length = max n.length (d + 1) := by
  unfold bump
  simp only [List.length_append, List.length_take, List.length_set,
    List.length_replicate]
  omega

theorem bump_take_eq (n : List Nat) (d : Nat) :
    (bump n d).take (d + 1) =
      (n ++ List.replicate (d + 1 - n.length) 0).take d ++
        [(n ++ List.replicate (d + 1 - n.length) 0).getD d 0 + 1] := by
  have hlen : d < (n ++ List.replicate (d + 1 - n.length) 0).length := by
    simp only [List.length_append, List.length_replicate]
    omega
  unfold bump
  rw [List.take_append_of_le_length (by
    simp only [List.length_take, List.length_set, List.length_append,
      List.length_replicate]
    omega)]
  rw [List.take_take, min_self]
  exact take_succ_set _ d _ hlen

theorem bump_getD_gt (n : List Nat) (d i : Nat) (hi : d < i) :
    (bump n d).getD i 0 = 0 := by
  have hA : ((((n ++ List.replicate (d + 1 - n.length) 0)).set d
      ((n ++ List.replicate (d + 1 - n.length) 0).getD d 0 + 1)).take (d + 1)).length
        = d + 1 := by
    simp only [List.length_take, List.length_set, List.length_append,
      List.length_replicate]
    omega
  unfold bump
  rw [List.getD_eq_getElem?_getD, List.getElem?_append_right (by rw [hA]; omega),
    List.getElem?_replicate]
  split <;> rfl

theorem getD_append_replicate (n : List Nat) (k d : Nat) :
    (n ++ List.replicate k 0).getD d 0 = n.getD d 0 := by
  rw [List.getD_eq_getElem?_getD, List.getD_eq_getElem?_getD]
  rcases Nat.lt_or_ge d n.length with h | h
  · rw [List.getElem?_append_left h]
  · rw [List.getElem?_append_right h, List.getElem?_replicate,
      List.getElem?_eq_none h]
    split <;> rfl

theorem bump_getD_self (n : List Nat) (d : Nat) :
    (bump n d).getD d 0 = n.getD d 0 + 1 := by
  have hlen : d < (n ++ List.replicate (d + 1 - n.length) 0).length := by
    simp only [List.length_append, List.length_replicate]
    omega
  have h1 : (bump n d).getD d 0 = ((bump n d).take (d + 1)).getD d 0 := by
    rw [List.getD_eq_getElem?_getD, List.getD_eq_getElem?_getD,
      List.getElem?_take]
    rw [if_pos (by omega)]
  rw [h1, bump_take_eq]
  have htl : ((n ++ List.replicate (d + 1 - n.length) 0).take d).length = d := by
    simp only [List.length_take, List.length_append, List.length_replicate]
    omega
  rw [List.getD_eq_getElem?_getD, List.getElem?_append_right (by omega),
    getD_append_replicate n (d + 1 - n.length) d]
  rw [htl]
  simp

theorem lex_append_same {r : Nat → Nat → Prop} (p : List Nat) {t1 t2 : List Nat}
    (h : List.Lex r t1 t2) : List.Lex r (p ++ t1) (p ++ t2) := by
  induction p with
  | nil => simpa
  | cons a q ih => exact List.Lex.cons ih

theorem lex_of_append {r : Nat → Nat → Prop} (l : List Nat) {t : List Nat}
    (ht : t ≠ []) : List.Lex r l (l ++ t) := by
  induction l with
  | nil =>
    cases t with
    | nil => cases ht rfl
    | cons c cs => exact List.Lex.nil
  | cons a q ih => exact List.Lex.cons ih

/-- The key ordering fact: if the current numbering has length at least
`d1 + 1` and is zero beyond index `d1`, then the numbering string emitted
after bumping at any depth `d2` is lexicographically strictly greater
than the one previously emitted at `d1`. -/
theorem bump_lex (m : List Nat) (d1 d2 : Nat)
    (hlen : d1 + 1 ≤ m.length)
    (hzero : ∀ i, d1 < i → m.getD i 0 = 0) :
    List.Lex (· < ·) (m.take (d1 + 1)) ((bump m d2).take (d2 + 1)) := by
  rcases Nat.lt_or_ge d1 d2 with hlt | hge
  · -- descend: the old string is a proper prefix of the new one
    rw [bump_take_eq]
    have hz : (m ++ List.replicate (d2 + 1 - m.length) 0).getD d2 0 = 0 := by
      rw [getD_append_replicate]
      exact hzero d2 hlt
    rw [hz]
    have hpre : ((m ++ List.replicate (d2 + 1 - m.length) 0).take d2).take (d1 + 1)
        = m.take (d1 + 1) := by
      rw [List.take_take, min_eq_left (by omega),
        List.take_append_of_le_length hlen]
    have hsplit := (List.take_append_drop (d1 + 1)
      ((m ++ List.replicate (d2 + 1 - m.length) 0).take d2)).symm
    rw [hpre] at hsplit
    rw [hsplit, List.append_assoc]
    exact lex_of_append _ (by simp)
  · -- ascend or stay: the component at `d2` strictly increases
    rw [bump_take_eq]
    have hrep : d2 + 1 - m.length = 0 := by omega
    rw [hrep, List.replicate_zero, List.append_nil]
    have hd2m : d2 < m.length := by omega
    have hd2t : d2 < (m.take (d1 + 1)).length := by
      simp only [List.length_take]
      omega
    have hs1 := (List.take_append_drop d2 (m.take (d1 + 1))).symm
    rw [List.take_take, min_eq_left (by omega : d2 ≤ d1 + 1),
      List.drop_eq_getElem_cons hd2t] at hs1
    rw [hs1]
    apply lex_append_same
    apply List.Lex.rel
    have : (m.take (d1 + 1))[d2] = m[d2] := List.getElem_take m
    rw [this, List.getD_eq_getElem?_getD, List.getElem?_eq_getElem hd2m]
    exact Nat.lt_succ_self _

/-- Invariant threaded through the `process_files` loop: the emitted
numbering strings are strictly increasing, and the last one is
`numbering[:d+1]` for the counters' current value, which is zero beyond
`d`. -/
def TraceInv (st : PState) : Prop :=
  List.Chain' (List.Lex (· < ·)) st.numTrace ∧
  ∀ last ∈ st.numTrace.getLast?, ∃ d, last = st.numbering.take (d + 1) ∧
    d + 1 ≤ st.numbering.length ∧ ∀ i, d < i → st.numbering.getD i 0 = 0

theorem traceInv_emit (st : PState) (depth : Nat) (tocE : String)
    (extra : List String) (h : TraceInv st) :
    TraceInv { toc := st.toc ++ [tocE], pages := st.pages ++ extra,
               numbering := bump st.numbering depth,
               numTrace := st.numTrace ++ [(bump st.numbering depth).take (depth + 1)] } := by
  constructor
  · rw [List.chain'_append]
    refine ⟨h.1, List.chain'_singleton _, ?_⟩
    intro a ha b hb
    simp only [List.head?_cons, Option.mem_def, Option.some.injEq] at hb
    subst hb
    rcases h.2 a ha with ⟨d, hEq, hLen, hZero⟩
    subst hEq
    exact bump_lex st.numbering d depth hLen hZero
  · intro last hlast
    rw [List.getLast?_concat] at hlast
    simp only [Option.mem_def, Option.some.injEq] at hlast
    subst hlast
    refine ⟨depth, rfl, ?_, fun i hi => bump_getD_gt _ _ _ hi⟩
    rw [bump_length]
    omega

theorem stepFile_traceInv (yaml : String → Option Meta) (mdRender : String → String)
    (fs : FPath → String) (root : FPath) (total index : Nat) (f : FPath)
    (st : PState) (h : TraceInv st) :
    TraceInv (stepFile yaml mdRender fs root total index f st) := by
  unfold stepFile
  dsimp only
  split
  · exact h
  · split
    · exact h
    · split
      · exact h
      · exact traceInv_emit st _ _ _ h

theorem processLoop_traceInv (yaml : String → Option Meta) (mdRender : String → String)
    (fs : FPath → String) (root : FPath) (total : Nat) (files : List FPath) :
    ∀ (index : Nat) (st : PState), TraceInv st →
      TraceInv (processLoop yaml mdRender fs root total index files st) := by
  induction files with
  | nil => intro index st h; exact h
  | cons f rest ih =>
    intro index st h
    exact ih (index + 1) _ (stepFile_traceInv yaml mdRender fs root total index f st h)


/-- **C7**: in the `process_files` loop, incrementing the numbering
counter at depth `d` zeroes every counter at depth greater than `d`, and
increments the counter at `d` itself; consequently, for every processed
document set (any yaml/markdown oracle, file contents and file list) the
emitted TOC numbering strings are strictly increasing in
lexicographic-by-component order across the discovery sequence. -/
theorem c7_numbering_invariants :
    (∀ (n : List Nat) (d i : Nat), d < i → (bump n d).getD i 0 = 0) ∧
    (∀ (n : List Nat) (d : Nat), (bump n d).getD d 0 = n.getD d 0 + 1) ∧
    ∀ (yaml : String → Option Meta) (mdRender : String → String)
      (fs : FPath → String) (root : FPath) (files : List FPath),
      List.Chain' (List.Lex (· < ·))
        ((processFilesState yaml mdRender fs root files).numTrace) := by
  refine ⟨fun n d i hi => bump_getD_gt n d i hi, fun n d => bump_getD_self n d, ?_⟩
  intro yaml mdRender fs root files
  have hInit : TraceInv initPState := by
    constructor
    · exact List.chain'_nil
    · intro last hlast
      simp [initPState] at hlast
  exact (processLoop_traceInv yaml mdRender fs root files.length files 0 initPState hInit).1

/-- Witness for C7 at concrete inputs: zeroing at a deeper index, the
increment at the bumped index, and the chain property for a concrete run. -/
theorem c7_numbering_invariants_witness :
    (bump [2, 5] 0).getD 1 0 = 0 ∧
    (bump [2, 5] 0).getD 0 0 = [2, 5].getD 0 0 + 1 ∧
    List.Chain' (List.Lex (· < ·))
      ((processFilesState (fun _ => none) id (fun _ => ("")) [] []).numTrace) :=
  ⟨c7_numbering_invariants.1 [2, 5] 0 1 (by decide),
   c7_numbering_invariants.2.1 [2, 5] 0,
   c7_numbering_invariants.2.2 (fun _ => none) id (fun _ => ("")) [] []⟩


/-! ### Metadata-presence lemmas (for claims C1, C9) -/

theorem dictInsert_ne_nil (m : Meta) (k v : String) : dictInsert m k v ≠ [] := by
  unfold dictInsert
  split
  · rename_i hany
    cases m with
    | nil => simp at hany
    | cons a t => simp
  · simp

theorem dictUpdate_ne_nil (m : Meta) (d : Meta) (hm : m ≠ []) :
    dictUpdate m d ≠ [] := by
  unfold dictUpdate
  induction d generalizing m with
  | nil => exact hm
  | cons kv rest ih => exact ih (dictInsert m kv.1 kv.2) (dictInsert_ne_nil m kv.1 kv.2)

/-- For every yaml oracle, `safe_load_frontmatter` recovers metadata as
soon as the title regex finds a `title:` key: the regex-extracted fields
survive any outcome of the structured parse. -/
theorem safeLoadFrontmatterL_isSome (yaml : String → Option Meta) (fm suf : List Char)
    (hne : fm.isEmpty = false)
    (hfind : findKeySuffix (("title:").toList) fm = some suf) :
    (safeLoadFrontmatterL yaml fm).isSome = true := by
  unfold safeLoadFrontmatterL
  rw [hne]
  simp only [Bool.false_eq_true, if_false, hfind]
  have hm0 : ∀ (rest : Meta),
      ((("title" : String), (stripQuoteSp (extractAfterKey suf)).asString) :: rest) ≠
        ([] : Meta) := by
    intro rest
    simp
  cases hdesc : findKeySuffix (("description:").toList) fm with
  | none =>
    simp only
    cases hy : yaml (joinNl ((splitNl fm).filter lineKept)).asString with
    | none =>
      simp only
      rw [if_neg (by simp)]
      rfl
    | some d =>
      simp only
      rw [if_neg (by
        simp only [List.isEmpty_iff]
        exact dictUpdate_ne_nil _ d (by simp))]
      rfl
  | some dsuf =>
    simp only
    cases hy : yaml (joinNl ((splitNl fm).filter lineKept)).asString with
    | none =>
      simp only
      rw [if_neg (by simp)]
      rfl
    | some d =>
      simp only
      rw [if_neg (by
        simp only [List.isEmpty_iff]
        exact dictUpdate_ne_nil _ d (by simp))]
      rfl


/-- When a file's (transformed) content yields nonempty frontmatter and
the metadata load succeeds, one loop iteration appends exactly one TOC
numbering entry, obtained by bumping the counters at the file's depth. -/
theorem stepFile_trace (yaml : String → Option Meta) (mdRender : String → String)
    (fs : FPath → String) (root : FPath) (total index : Nat) (f : FPath)
    (st : PState) (fmText : String)
    (hpr : (parseFrontmatter (preprocessCodeBlocks (processImagePaths (fs f)))).1
      = some fmText)
    (hne : fmText.isEmpty = false)
    (hsome : (safeLoadFrontmatterL yaml fmText.toList).isSome = true) :
    (stepFile yaml mdRender fs root total index f st).numTrace
      = st.numTrace ++ [(bump st.numbering (depthOf root f)).take (depthOf root f + 1)]
    ∧ (stepFile yaml mdRender fs root total index f st).numbering
      = bump st.numbering (depthOf root f) := by
  obtain ⟨data, hdata⟩ := Option.isSome_iff_exists.mp hsome
  unfold stepFile
  dsimp only
  rw [hpr]
  dsimp only
  rw [hne]
  simp only [Bool.false_eq_true, if_false, hdata]
  refine ⟨?_, ?_⟩ <;> first | rfl | trivial

/-! ### The three-document scenario of claim C1 -/

/-- The walked file tree of the end-to-end scenario. -/
def walkedC1 : List FPath :=
  [["docs", "index.md"], ["docs", "guide", "index.md"], ["docs", "guide", "setup.md"]]

/-- The file contents of the end-to-end scenario. -/
def fsC1 : FPath → String
  | ["docs", "index.md"] => "---\ntitle: Intro\n---\nWelcome"
  | ["docs", "guide", "index.md"] => "---\ntitle: Guide\n---\nG"
  | ["docs", "guide", "setup.md"] => "---\ntitle: Setup\n---\nS"
  | _ => ""

/-- **C1 (counterexample)**: with the three documents of the end-to-end
scenario, discovery returns the claimed order, but the emitted numbering
strings are `1`, `2`, `2.1` — not `1`, `1.1`, `1.1.1` as claimed: the
depth adjustment makes `guide/index.md` a depth-0 sibling of `index.md`.
(The yaml oracle is instantiated with constant failure, which the
metadata regex extraction makes irrelevant; the markdown renderer is the
identity.) -/
theorem c1_counterexample :
    getFilesSorted ["docs"] walkedC1 = walkedC1 ∧
    ((processFilesState (fun _ => none) id fsC1 ["docs"]
      (getFilesSorted ["docs"] walkedC1)).numTrace).map numberingString
      = ["1", "2", "2.1"] ∧
    (["1", "2", "2.1"] : List String) ≠ ["1", "1.1", "1.1.1"] :=
  ⟨by decide, by decide, by decide⟩

/-- **C1 (amended)**: for every yaml/markdown oracle, the three-document
scenario is discovered in order `[index.md, guide/index.md,
guide/setup.md]` and numbered `1`, `2`, `2.1` (guide/index.md is counted
at depth 0 because of the index-file depth adjustment). -/
theorem c1_scenario_order_and_numbering (yaml : String → Option Meta)
    (mdRender : String → String) :
    getFilesSorted ["docs"] walkedC1 = walkedC1 ∧
    ((processFilesState yaml mdRender fsC1 ["docs"]
      (getFilesSorted ["docs"] walkedC1)).numTrace).map numberingString
      = ["1", "2", "2.1"] := by
  have hsorted : getFilesSorted ["docs"] walkedC1 = walkedC1 := by decide
  refine ⟨hsorted, ?_⟩
  rw [hsorted]
  show ((stepFile yaml mdRender fsC1 ["docs"] 3 2 (["docs", "guide", "setup.md"])
      (stepFile yaml mdRender fsC1 ["docs"] 3 1 (["docs", "guide", "index.md"])
        (stepFile yaml mdRender fsC1 ["docs"] 3 0 (["docs", "index.md"])
          initPState))).numTrace).map numberingString = ["1", "2", "2.1"]
  have h1 := stepFile_trace yaml mdRender fsC1 ["docs"] 3 0 (["docs", "index.md"])
    initPState ("title: Intro") rfl rfl
    (safeLoadFrontmatterL_isSome yaml _ ((" Intro").toList) rfl rfl)
  have h2 := stepFile_trace yaml mdRender fsC1 ["docs"] 3 1 (["docs", "guide", "index.md"])
    (stepFile yaml mdRender fsC1 ["docs"] 3 0 (["docs", "index.md"]) initPState)
    ("title: Guide") rfl rfl
    (safeLoadFrontmatterL_isSome yaml _ ((" Guide").toList) rfl rfl)
  have h3 := stepFile_trace yaml mdRender fsC1 ["docs"] 3 2 (["docs", "guide", "setup.md"])
    (stepFile yaml mdRender fsC1 ["docs"] 3 1 (["docs", "guide", "index.md"])
      (stepFile yaml mdRender fsC1 ["docs"] 3 0 (["docs", "index.md"]) initPState))
    ("title: Setup") rfl rfl
    (safeLoadFrontmatterL_isSome yaml _ ((" Setup").toList) rfl rfl)
  rw [h3.1, h2.1, h2.2, h1.1, h1.2]
  decide


/-! ### Split/join lemmas (for claims C3, C6) -/

theorem splitNl_no_nl {l : List Char} (h : '\n' ∉ l) : splitNl l = [l] := by
  induction l with
  | nil => rfl
  | cons c t ih =>
    have hc : c ≠ '\n' := fun hcon => h (hcon ▸ List.mem_cons_self c t)
    have ht : '\n' ∉ t := fun hcon => h (List.mem_cons_of_mem c hcon)
    conv_lhs => unfold splitNl
    rw [if_neg hc, ih ht]

theorem splitNl_append_nl {l : List Char} (r : List Char) (h : '\n' ∉ l) :
    splitNl (l ++ '\n' :: r) = l :: splitNl r := by
  induction l with
  | nil =>
    show splitNl ('\n' :: r) = [] :: splitNl r
    conv_lhs => unfold splitNl
    rw [if_pos rfl]
  | cons c t ih =>
    have hc : c ≠ '\n' := fun hcon => h (hcon ▸ List.mem_cons_self c t)
    have ht : '\n' ∉ t := fun hcon => h (List.mem_cons_of_mem c hcon)
    rw [List.cons_append]
    conv_lhs => unfold splitNl
    rw [if_neg hc, ih ht]

theorem joinNl_singleton (l : List Char) : joinNl [l] = l := by
  simp [joinNl, List.intercalate]

theorem joinNl_cons_cons (l l2 : List Char) (rest : List (List Char)) :
    joinNl (l :: l2 :: rest) = l ++ '\n' :: joinNl (l2 :: rest) := by
  unfold joinNl List.intercalate
  rw [List.intersperse_cons_cons]
  simp

theorem splitNl_joinNl {ls : List (List Char)} (hne : ls ≠ [])
    (hnl : ∀ l ∈ ls, '\n' ∉ l) : splitNl (joinNl ls) = ls := by
  induction ls with
  | nil => cases hne rfl
  | cons l rest ih =>
    cases rest with
    | nil =>
      rw [joinNl_singleton]
      exact splitNl_no_nl (hnl l (List.mem_cons_self l []))
    | cons l2 rest2 =>
      rw [joinNl_cons_cons,
        splitNl_append_nl _ (hnl l (List.mem_cons_self l _)),
        ih (by simp) (fun x hx => hnl x (List.mem_cons_of_mem l hx))]


theorem findIdx?_marker_append (l1 r : List (List Char)) (i : Nat)
    (h : ∀ x ∈ l1, (x == fmMarker) = false) :
    List.findIdx? (fun l => l == fmMarker) (l1 ++ fmMarker :: r) i
      = some (i + l1.length) := by
  induction l1 generalizing i with
  | nil =>
    rw [List.nil_append, List.findIdx?_cons, if_pos (by simp)]
    simp
  | cons a t ih =>
    rw [List.cons_append, List.findIdx?_cons, if_neg (by
      rw [h a (List.mem_cons_self a t)]
      simp)]
    rw [ih (i + 1) (fun x hx => h x (List.mem_cons_of_mem a hx))]
    simp only [List.length_cons]
    congr 1
    omega

/-- **C3 (counterexample)**: the effective `parse_frontmatter` does *not*
strip import-statement lines from the body: a recognised document keeps
its import line verbatim. -/
theorem c3_counterexample :
    parseFrontmatter ("---\ntitle: T\n---\nimport X from 'y'\nbody")
      = (some ("title: T"), "import X from 'y'\nbody") ∧
    ("import X from 'y'\nbody" : String) ≠ "body" :=
  ⟨by decide, by decide⟩

/-- **C3 (amended)**: for every document with a recognised frontmatter
block, the effective (second) `parse_frontmatter` returns the text after
the closing delimiter *verbatim* — it strips nothing from the body (the
import-stripping of the shadowed first definition is not performed; import
statements are instead rewritten earlier, by `process_image_paths`). -/
theorem c3_body_verbatim (fmLines restLines : List (List Char))
    (hfm : ∀ l ∈ fmLines, '\n' ∉ l ∧ l ≠ fmMarker)
    (hrest : ∀ l ∈ restLines, '\n' ∉ l) :
    (parseFrontmatterL (joinNl ([fmMarker] ++ fmLines ++ [fmMarker] ++ restLines))).2
      = joinNl restLines := by
  have hnl : ∀ l ∈ ([fmMarker] ++ fmLines ++ [fmMarker] ++ restLines), '\n' ∉ l := by
    intro l hl
    simp only [List.mem_append, List.mem_singleton] at hl
    rcases hl with ((hl | hl) | hl) | hl
    · subst hl; decide
    · exact (hfm l hl).1
    · subst hl; decide
    · exact hrest l hl
  have hsplit : splitNl (joinNl ([fmMarker] ++ fmLines ++ [fmMarker] ++ restLines))
      = [fmMarker] ++ fmLines ++ [fmMarker] ++ restLines :=
    splitNl_joinNl (by simp) hnl
  unfold parseFrontmatterL
  rw [hsplit]
  dsimp only
  have hhead : (([fmMarker] ++ fmLines ++ [fmMarker] ++ restLines).headD []) = fmMarker := by
    simp
  rw [hhead, if_pos (by decide)]
  have hdrop1 : ([fmMarker] ++ fmLines ++ [fmMarker] ++ restLines).drop 1
      = fmLines ++ fmMarker :: restLines := by
    simp [List.append_assoc]
  rw [hdrop1,
    findIdx?_marker_append fmLines restLines 0
      (fun x hx => by rw [beq_eq_false_iff_ne]; exact (hfm x hx).2)]
  dsimp only
  have hdrop2 : ([fmMarker] ++ fmLines ++ [fmMarker] ++ restLines).drop
      (0 + fmLines.length + 2) = restLines := by
    rw [show (0 + fmLines.length + 2) = (fmLines.length + 1) + 1 by omega]
    rw [show ([fmMarker] ++ fmLines ++ [fmMarker] ++ restLines)
      = fmMarker :: (fmLines ++ fmMarker :: restLines) by simp]
    rw [List.drop_succ_cons]
    rw [show fmLines.length + 1 = (fmLines ++ [fmMarker]).length by simp]
    rw [show fmLines ++ fmMarker :: restLines = (fmLines ++ [fmMarker]) ++ restLines by simp]
    exact List.drop_left _ _
  rw [hdrop2]


/-- Witness for C3 at a concrete document. -/
theorem c3_body_verbatim_witness :
    (parseFrontmatterL (joinNl ([fmMarker] ++ [("title: T").toList] ++ [fmMarker] ++
      [("import X from 'y'").toList, ("body").toList]))).2
      = joinNl [("import X from 'y'").toList, ("body").toList] :=
  c3_body_verbatim [("title: T").toList]
    [("import X from 'y'").toList, ("body").toList] (by decide) (by decide)

/-- **C6 (counterexample)**: a document whose first line is `" ---"`
(whitespace before the marker) is still recognised, because the source
strips the first line before comparing; so "first line is exactly `---`"
is not required. -/
theorem c6_counterexample :
    (parseFrontmatter (" ---\ntitle: x\n---\nb")).1 = some ("title: x") ∧
    (splitNl ((" ---\ntitle: x\n---\nb").toList)).headD [] = (" ---").toList ∧
    (" ---").toList ≠ ("---").toList :=
  ⟨by decide, by decide, by decide⟩

/-- **C6 (amended)**: `parse_frontmatter` recognises a frontmatter block
iff the first line, stripped of surrounding whitespace, equals `---` and
some later line is exactly `---`; when it recognises nothing (including
the unterminated case) it returns `(absent, content unchanged)`. -/
theorem c6_recognition (s : List Char) :
    (((parseFrontmatterL s).1).isSome
      = (decide (pyStrip ((splitNl s).headD []) = fmMarker) &&
         ((splitNl s).drop 1).any (fun l => l == fmMarker))) ∧
    ((parseFrontmatterL s).1 = none → (parseFrontmatterL s).2 = s) := by
  unfold parseFrontmatterL
  dsimp only
  by_cases hif : pyStrip ((splitNl s).headD []) = fmMarker
  · rw [if_pos hif]
    cases hidx : List.findIdx? (fun l => l == fmMarker) ((splitNl s).drop 1) with
    | none =>
      dsimp only
      have hdec : decide (pyStrip ((splitNl s).headD []) = fmMarker) = true := by
        rw [decide_eq_true_eq]
        exact hif
      have hany := @List.findIdx?_isSome _ ((splitNl s).drop 1) (fun l => l == fmMarker)
      rw [hidx] at hany
      simp only [Option.isSome_none] at hany
      exact ⟨by rw [hdec, ← hany]; rfl, fun _ => rfl⟩
    | some i =>
      dsimp only
      have hdec : decide (pyStrip ((splitNl s).headD []) = fmMarker) = true := by
        rw [decide_eq_true_eq]
        exact hif
      have hany := @List.findIdx?_isSome _ ((splitNl s).drop 1) (fun l => l == fmMarker)
      rw [hidx] at hany
      simp only [Option.isSome_some] at hany
      refine ⟨by rw [hdec, ← hany]; rfl, fun hcon => ?_⟩
      cases hcon
  · rw [if_neg hif]
    have hdec : decide (pyStrip ((splitNl s).headD []) = fmMarker) = false := by
      rw [decide_eq_false_iff_not]
      exact hif
    exact ⟨by rw [hdec, Bool.false_and]; rfl, fun _ => rfl⟩

/-- Witness for C6 at a concrete unrecognised document. -/
theorem c6_recognition_witness :
    (parseFrontmatterL (("x").toList)).2 = ("x").toList :=
  (c6_recognition (("x").toList)).2 (by decide)

/-- **C9**: a document whose metadata is absent — either
`parse_frontmatter` recognises no frontmatter, or
`safe_load_frontmatter` recovers nothing — leaves the `process_files`
loop state completely unchanged: no page, no TOC entry, no numbering
change; the loop simply continues with the next file. -/
theorem c9_absent_metadata_dropped (yaml : String → Option Meta)
    (mdRender : String → String) (fs : FPath → String) (root : FPath)
    (total index : Nat) (f : FPath) (st : PState)
    (h : (parseFrontmatter (preprocessCodeBlocks (processImagePaths (fs f)))).1 = none ∨
      ∀ fmText,
        (parseFrontmatter (preprocessCodeBlocks (processImagePaths (fs f)))).1
          = some fmText → safeLoadFrontmatterL yaml fmText.toList = none) :
    stepFile yaml mdRender fs root total index f st = st := by
  unfold stepFile
  dsimp only
  rcases h with h | h
  · rw [h]
  · cases hcase : (parseFrontmatter (preprocessCodeBlocks (processImagePaths (fs f)))).1 with
    | none => rfl
    | some fm =>
      dsimp only
      by_cases hfe : fm.isEmpty = true
      · rw [if_pos hfe]
      · rw [if_neg hfe, h fm hcase]

/-- Witness for C9: a frontmatter-less file leaves the initial state
untouched. -/
theorem c9_absent_metadata_dropped_witness :
    stepFile (fun _ => none) id (fun _ => ("hello world")) [] 1 0 [("a.md" : String)]
      initPState = initPState :=
  c9_absent_metadata_dropped (fun _ => none) id (fun _ => ("hello world")) [] 1 0
    [("a.md" : String)] initPState (Or.inl (by decide))

/-! ### The failing input of claim C5 -/

/-- Two files: the first has valid frontmatter, the second has none. -/
def fsC5 : FPath → String
  | ["docs", "a.md"] => "---\ntitle: A\n---\nbody"
  | _ => "no frontmatter here"

/-- **C5 (code bug)**: with input files `[a.md, b.md]` where `b.md` lacks
frontmatter, the emitted page list is `[page_a, page-break]`: a page-break
marker *follows the final emitted page*, because the source guards the
separator with `index < len(files) - 1` (position in the input list)
instead of testing whether any later file will emit a page. -/
theorem c5_trailing_break_eval :
    ((processFilesState (fun _ => none) id fsC5 ["docs"]
        [["docs", "a.md"], ["docs", "b.md"]]).pages).length = 2 ∧
    ((processFilesState (fun _ => none) id fsC5 ["docs"]
        [["docs", "a.md"], ["docs", "b.md"]]).pages).getLast? = some pageBreakStr :=
  ⟨by decide, by decide⟩


/-! ### Sorting lemmas (claim C4) -/

theorem sortKeyOf_concat (d : FPath) (s : String) :
    sortKeyOf (d ++ [s]) = (String.intercalate ("/") d).toList ++ '/' ::
      (if s == ("index.md" : String) then '0' else '1') :: s.toList := by
  unfold sortKeyOf dirString
  rw [List.dropLast_concat, List.getLast?_concat]
  simp

theorem keyLe_one_zero (P x y : List Char) :
    keyLe (P ++ '1' :: y) (P ++ '0' :: x) = false := by
  induction P with
  | nil =>
    simp only [List.nil_append]
    unfold keyLe
    rw [if_neg (by decide), if_pos (by decide)]
  | cons c P ih =>
    simp only [List.cons_append]
    unfold keyLe
    rw [if_neg (lt_irrefl c), if_neg (lt_irrefl c)]
    exact ih

/-- **C4 (counterexample)**: a file literally named `index` with the
`.mdx` extension does *not* sort before its siblings: the source's
priority test is `file == 'index.md'` only, so `index.mdx` is ordered as
a regular file and `about.md` precedes it. -/
theorem c4_counterexample :
    getFilesSorted ["docs"] [["docs", "index.mdx"], ["docs", "about.md"]]
      = [["docs", "about.md"], ["docs", "index.mdx"]] ∧
    ([["docs", "about.md"], ["docs", "index.mdx"]] : List FPath)
      ≠ [["docs", "index.mdx"], ["docs", "about.md"]] :=
  ⟨by decide, by decide⟩

/-- **C4 (amended)**: in `get_files_sorted`'s output, a file literally
named `index.md` (only the `.md` spelling is prioritised) precedes every
sibling file of the same directory not named `index.md`; ties are broken
by comparing the concatenated key strings (directory path, then the
`0`/`1` priority digit, then the file name). -/
theorem c4_index_md_first (root : FPath) (walked : List FPath) (d : FPath) (g : String)
    (hg : g ≠ ("index.md" : String))
    (i j : Fin (getFilesSorted root walked).length)
    (hfi : (getFilesSorted root walked).get i = d ++ [("index.md" : String)])
    (hfj : (getFilesSorted root walked).get j = d ++ [g]) :
    (i : Nat) < (j : Nat) := by
  have hsorted : List.Pairwise pathLe (getFilesSorted root walked) :=
    List.sorted_insertionSort pathLe _
  have hkey : keyLe (sortKeyOf (d ++ [g]))
      (sortKeyOf (d ++ [("index.md" : String)])) = false := by
    rw [sortKeyOf_concat, sortKeyOf_concat]
    rw [if_neg (show ¬((g == ("index.md" : String)) = true) by simp [hg]),
      if_pos (show (("index.md" : String) == ("index.md" : String)) = true by simp)]
    have h1 : (String.intercalate ("/") d).toList ++ '/' :: '1' :: g.toList
        = ((String.intercalate ("/") d).toList ++ ['/']) ++ '1' :: g.toList := by
      simp
    have h2 : (String.intercalate ("/") d).toList ++ '/' ::
          '0' :: (("index.md" : String)).toList
        = ((String.intercalate ("/") d).toList ++ ['/']) ++
          '0' :: (("index.md" : String)).toList := by
      simp
    rw [h1, h2]
    exact keyLe_one_zero _ _ _
  by_contra hcon
  push_neg at hcon
  rcases Nat.lt_or_ge (j : Nat) (i : Nat) with hlt | hge
  · have hp := List.pairwise_iff_get.mp hsorted j i hlt
    rw [hfi, hfj] at hp
    unfold pathLe at hp
    rw [hkey] at hp
    cases hp
  · have hij : (i : Nat) = (j : Nat) := by omega
    have : (getFilesSorted root walked).get i = (getFilesSorted root walked).get j := by
      congr 1
      exact Fin.ext hij
    rw [hfi, hfj] at this
    have hgi : g = ("index.md" : String) := by
      have := List.append_cancel_left this
      simpa using this.symm
    exact hg hgi

/-- Witness for C4: with walked files `[docs/b.md, docs/index.md]`,
`index.md` lands at position 0 and `b.md` at position 1. -/
theorem c4_index_md_first_witness : (0 : Nat) < 1 :=
  c4_index_md_first ["docs"] [["docs", "b.md"], ["docs", "index.md"]] ["docs"]
    ("b.md") (by decide)
    ⟨0, by decide⟩ ⟨1, by decide⟩ (by decide) (by decide)


/-! ### Character-class lemmas (claims C2, C8, C10) -/

theorem ws_cases {c : Char} (h : wsChar c = true) :
    c = ' ' ∨ c = '\t' ∨ c = '\n' ∨ c = '\r' ∨ c = '\x0b' ∨ c = '\x0c' := by
  have h2 : ((((c = ' ' ∨ c = '\t') ∨ c = '\n') ∨ c = '\x0d') ∨ c = '\x0b') ∨
      c = '\x0c' := by
    simpa [wsChar, Bool.or_eq_true, decide_eq_true_eq] using h
  tauto

theorem quote_cases {c : Char} (h : quoteChar c = true) : c = '\'' ∨ c = '"' := by
  simpa [quoteChar, Bool.or_eq_true, decide_eq_true_eq] using h

theorem wordChar_not_ws {c : Char} (h : wordChar c = true) : wsChar c = false := by
  cases hws : wsChar c with
  | false => rfl
  | true =>
    rcases ws_cases hws with rfl | rfl | rfl | rfl | rfl | rfl <;>
      exact absurd h (by decide)

theorem wordChar_not_quote {c : Char} (h : wordChar c = true) : quoteChar c = false := by
  cases hq : quoteChar c with
  | false => rfl
  | true =>
    rcases quote_cases hq with rfl | rfl <;> exact absurd h (by decide)

theorem wordChar_ne {c : Char} (h : wordChar c = true) (d : Char)
    (hd : wordChar d = false) : c ≠ d := by
  intro hcon
  subst hcon
  rw [h] at hd
  cases hd

theorem takeWhile_append_cons (p : Char → Bool) (l : List Char) (c : Char)
    (r : List Char) (hl : ∀ x ∈ l, p x = true) (hc : p c = false) :
    (l ++ c :: r).takeWhile p = l := by
  induction l with
  | nil => simp [List.takeWhile_cons, hc]
  | cons a t ih =>
    rw [List.cons_append, List.takeWhile_cons, if_pos (hl a (List.mem_cons_self a t)),
      ih (fun x hx => hl x (List.mem_cons_of_mem a hx))]

theorem dropWhile_append_cons (p : Char → Bool) (l : List Char) (c : Char)
    (r : List Char) (hl : ∀ x ∈ l, p x = true) (hc : p c = false) :
    (l ++ c :: r).dropWhile p = c :: r := by
  induction l with
  | nil => simp [List.dropWhile_cons, hc]
  | cons a t ih =>
    rw [List.cons_append, List.dropWhile_cons, if_pos (hl a (List.mem_cons_self a t)),
      ih (fun x hx => hl x (List.mem_cons_of_mem a hx))]

/-- If a text contains no quote character, the import pattern cannot
complete (it requires a quoted path), so its matcher fails. -/
theorem matchImportTail_none_of_no_quote {t : List Char}
    (h : ∀ c ∈ t, quoteChar c = false) : matchImportTail t = none := by
  unfold matchImportTail
  cases h1 : eatWs1 t with
  | none => rfl
  | some t1 =>
    rw [Option.some_bind]
    have ht1 : ∀ c ∈ t1, quoteChar c = false := by
      intro c hc
      apply h
      unfold eatWs1 at h1
      split at h1
      · cases h1
      · cases h1
        exact (List.dropWhile_sublist _).subset hc
    cases h2 : eatWord1 t1 with
    | none => rfl
    | some nt =>
      rw [Option.some_bind]
      have ht2 : ∀ c ∈ nt.2, quoteChar c = false := by
        intro c hc
        apply ht1
        unfold eatWord1 at h2
        split at h2
        · cases h2
        · cases h2
          exact (List.dropWhile_sublist _).subset hc
      cases h3 : eatWs1 nt.2 with
      | none => rfl
      | some t2 =>
        rw [Option.some_bind]
        have ht3 : ∀ c ∈ t2, quoteChar c = false := by
          intro c hc
          apply ht2
          unfold eatWs1 at h3
          split at h3
          · cases h3
          · cases h3
            exact (List.dropWhile_sublist _).subset hc
        cases h4 : eatLit (("from").toList) t2 with
        | none => rfl
        | some t3 =>
          rw [Option.some_bind]
          have ht4 : ∀ c ∈ t3, quoteChar c = false := by
            intro c hc
            apply ht3
            unfold eatLit at h4
            split at h4
            · cases h4
              exact (List.drop_sublist _ _).subset hc
            · cases h4
          cases h5 : eatWs1 t3 with
          | none => rfl
          | some t4 =>
            rw [Option.some_bind]
            have ht5 : ∀ c ∈ t4, quoteChar c = false := by
              intro c hc
              apply ht4
              unfold eatWs1 at h5
              split at h5
              · cases h5
              · cases h5
                exact (List.dropWhile_sublist _).subset hc
            cases t4 with
            | nil => rfl
            | cons q t5 =>
              dsimp only
              rw [if_neg (by
                rw [ht5 q (List.mem_cons_self q t5)]
                simp)]

/-- Scanner identity: a text with no quote character is unchanged by the
MDX-import pass. -/
theorem mdxSubF_id (fuel : Nat) : ∀ (s : List Char),
    (∀ c ∈ s, quoteChar c = false) → mdxSubF fuel s = s := by
  induction fuel with
  | zero => intro s _; rfl
  | succ fuel ih =>
    intro s h
    cases s with
    | nil => rfl
    | cons c t =>
      unfold mdxSubF
      by_cases hp : (("import").toList.isPrefixOf (c :: t)) = true
      · rw [if_pos hp, matchImportTail_none_of_no_quote
          (fun x hx => h x ((List.drop_sublist 6 (c :: t)).subset hx))]
        rw [ih t (fun x hx => h x (List.mem_cons_of_mem c hx))]
      · rw [if_neg hp, ih t (fun x hx => h x (List.mem_cons_of_mem c hx))]

theorem mdxSub_id (s : List Char) (h : ∀ c ∈ s, quoteChar c = false) :
    mdxSub s = s :=
  mdxSubF_id s.length s h

theorem ltImage_prefix_false {c : Char} {t : List Char} (hc : c ≠ '<') :
    (("<Image").toList.isPrefixOf (c :: t)) = false := by
  have hb : ('<' == c) = false := beq_eq_false_iff_ne.mpr (fun hcon => hc hcon.symm)
  simp [List.isPrefixOf, hb]

/-- Scanner identity: a text with no `<` is unchanged by the component
pass. -/
theorem componentSubF_id (fuel : Nat) : ∀ (s : List Char),
    (∀ c ∈ s, c ≠ '<') → componentSubF fuel s = s := by
  induction fuel with
  | zero => intro s _; rfl
  | succ fuel ih =>
    intro s h
    cases s with
    | nil => rfl
    | cons c t =>
      unfold componentSubF
      rw [if_neg (by
        rw [ltImage_prefix_false (h c (List.mem_cons_self c t))]
        simp)]
      rw [ih t (fun x hx => h x (List.mem_cons_of_mem c hx))]

theorem componentSub_id (s : List Char) (h : ∀ c ∈ s, c ≠ '<') :
    componentSub s = s :=
  componentSubF_id s.length s h

/-- No markdown-image match can start anywhere in `s`: every `](`
occurrence is followed by a failing path. -/
def NoMdCand (s : List Char) : Prop :=
  ∀ u v : List Char, s = u ++ ']' :: '(' :: v → tryMdPath v = none

theorem noMdCand_tail {c : Char} {s : List Char} (h : NoMdCand (c :: s)) :
    NoMdCand s :=
  fun u v hv => h (c :: u) v (by rw [hv]; rfl)

theorem noMdCand_nil : NoMdCand [] := by
  intro u v hv
  cases u <;> simp at hv

theorem noMdCand_drop {s : List Char} (h : NoMdCand s) (n : Nat) :
    NoMdCand (s.drop n) := by
  induction n generalizing s with
  | zero => exact h
  | succ n ih =>
    cases s with
    | nil => exact noMdCand_nil
    | cons c t =>
      rw [List.drop_succ_cons]
      exact ih (noMdCand_tail h)

theorem findAltPath_cons_step {a : Char} (h1 : a ≠ ']') (h2 : a ≠ '\n')
    (acc t : List Char) : findAltPath acc (a :: t) = findAltPath (a :: acc) t := by
  conv_lhs => unfold findAltPath
  rcases t with _ | ⟨d, t'⟩ <;> simp_all

theorem findAltPath_none_of : ∀ (acc s : List Char), NoMdCand s →
    findAltPath acc s = none := by
  intro acc s
  induction acc, s using findAltPath.induct with
  | case1 acc t p rest heq =>
    intro h
    rw [h [] t rfl] at heq
    cases heq
  | case2 acc t heq ih =>
    intro h
    have hstep : findAltPath acc (']' :: '(' :: t) = findAltPath (']' :: acc) ('(' :: t) := by
      simp only [findAltPath, heq]
    rw [hstep]
    apply ih
    intro u v hv
    cases u with
    | nil =>
      injection hv with hx _
      exact absurd hx (by decide)
    | cons x u' =>
      rw [List.cons_append] at hv
      injection hv with _ ht
      exact h (']' :: '(' :: u') v (by rw [ht]; rfl)
  | case3 acc t =>
    intro _
    rfl
  | case4 acc c t hne hnl ih =>
    intro h
    have hstep : findAltPath acc (c :: t) = findAltPath (c :: acc) t := by
      conv_lhs => unfold findAltPath
      rcases t with _ | ⟨d, t'⟩ <;> simp_all
    rw [hstep]
    exact ih (noMdCand_tail h)
  | case5 acc =>
    intro _
    rfl


/-- Scanner identity: a text in which every `](` occurrence has a failing
path is unchanged by the markdown-image pass. -/
theorem mdImageSubF_id (fuel : Nat) : ∀ (s : List Char), NoMdCand s →
    mdImageSubF fuel s = s := by
  induction fuel with
  | zero => intro s _; rfl
  | succ fuel ih =>
    intro s h
    cases s with
    | nil => rfl
    | cons c t =>
      unfold mdImageSubF
      by_cases hp : (("![").toList.isPrefixOf (c :: t)) = true
      · rw [if_pos hp, findAltPath_none_of [] ((c :: t).drop 2) (noMdCand_drop h 2)]
        rw [ih t (noMdCand_tail h)]
      · rw [if_neg hp, ih t (noMdCand_tail h)]

theorem mdImageSub_id (s : List Char) (h : NoMdCand s) : mdImageSub s = s :=
  mdImageSubF_id s.length s h

/-- The unique `](` decomposition of `A ++ ']' :: '(' :: B` when neither
`A` nor `B` contains `]`. -/
theorem split_unique {A B u v : List Char} (hA : ']' ∉ A) (hB : ']' ∉ B)
    (h : A ++ ']' :: '(' :: B = u ++ ']' :: '(' :: v) : v = B := by
  induction A generalizing u with
  | nil =>
    cases u with
    | nil =>
      simp only [List.nil_append] at h
      injection h with _ h2
      injection h2 with _ h3
      exact h3.symm
    | cons x u' =>
      simp only [List.nil_append, List.cons_append] at h
      injection h with _ h2
      exfalso
      have hmem : ']' ∈ u' ++ ']' :: '(' :: v := by simp
      rw [← h2] at hmem
      rcases List.mem_cons.mp hmem with h3 | h3
      · exact absurd h3 (by decide)
      · exact hB h3
  | cons a A' ih =>
    cases u with
    | nil =>
      simp only [List.nil_append, List.cons_append] at h
      injection h with h1 _
      subst h1
      exact absurd (List.mem_cons_self _ _) hA
    | cons x u' =>
      simp only [List.cons_append] at h
      injection h with _ h2
      exact ih (fun hm => hA (List.mem_cons_of_mem a hm)) h2

theorem noMdCand_of_shape (A B : List Char) (hA : ']' ∉ A) (hB : ']' ∉ B)
    (hB0 : tryMdPath B = none) : NoMdCand (A ++ ']' :: '(' :: B) := by
  intro u v hv
  rw [split_unique hA hB hv]
  exact hB0

theorem mdImageSubF_nil (fuel : Nat) : mdImageSubF fuel [] = [] := by
  cases fuel <;> rfl

theorem mdxSubF_nil (fuel : Nat) : mdxSubF fuel [] = [] := by
  cases fuel <;> rfl

theorem scanClose_cons_step {c : Char} (h1 : c ≠ ')') (h2 : c ≠ '\n')
    (acc r : List Char) : scanClose acc (c :: r) = scanClose (c :: acc) r := by
  conv_lhs => unfold scanClose
  rcases r with _ | ⟨d, r'⟩ <;> simp_all

theorem scanClose_yes (p' : List Char) (rest : List Char)
    (hp : ∀ c ∈ p', c ≠ ')' ∧ c ≠ '\n') :
    ∀ acc, scanClose acc (p' ++ ')' :: rest) = some (acc.reverse ++ p', rest) := by
  induction p' with
  | nil =>
    intro acc
    simp [scanClose]
  | cons c p'' ih =>
    intro acc
    obtain ⟨hc1, hc2⟩ := hp c (List.mem_cons_self c p'')
    rw [List.cons_append, scanClose_cons_step hc1 hc2,
      ih (fun x hx => hp x (List.mem_cons_of_mem c hx)) (c :: acc)]
    simp

theorem tryMdPath_yes (p0 : Char) (prest rest : List Char)
    (h0 : (p0 = 'h' || p0 = 't' || p0 = 'p') = false)
    (hp : ∀ c ∈ prest, c ≠ ')' ∧ c ≠ '\n') :
    tryMdPath ((p0 :: prest) ++ ')' :: rest) = some (p0 :: prest, rest) := by
  rw [List.cons_append]
  unfold tryMdPath
  dsimp only
  rw [if_neg (by rw [h0]; simp)]
  rw [scanClose_yes prest rest hp []]
  rfl

theorem findAltPath_yes (alt : List Char) (halt : ∀ c ∈ alt, c ≠ ']' ∧ c ≠ '\n')
    (X p rest : List Char) (hX : tryMdPath X = some (p, rest)) :
    ∀ acc, findAltPath acc (alt ++ ']' :: '(' :: X)
      = some (acc.reverse ++ alt, p, rest) := by
  induction alt with
  | nil =>
    intro acc
    simp only [List.nil_append, findAltPath, hX]
    simp
  | cons a alt' ih =>
    intro acc
    obtain ⟨ha1, ha2⟩ := halt a (List.mem_cons_self a alt')
    rw [List.cons_append, findAltPath_cons_step ha1 ha2,
      ih (fun x hx => halt x (List.mem_cons_of_mem a hx)) (a :: acc)]
    simp


theorem tryMdPath_h (r : List Char) : tryMdPath ('h' :: r) = none := by
  unfold tryMdPath
  dsimp only
  rw [if_pos (by decide)]

theorem tryMdPath_baseUrl (X : List Char) : tryMdPath (baseUrl ++ X) = none := by
  have h : baseUrl ++ X = 'h' :: (("ttps://docs.astro.build/").toList ++ X) := rfl
  rw [h]
  exact tryMdPath_h _

theorem eatWs1_cons {c : Char} (hc : wsChar c = true) (t : List Char) :
    eatWs1 (c :: t) = some (t.dropWhile wsChar) := by
  unfold eatWs1
  rw [List.takeWhile_cons, if_pos hc, List.dropWhile_cons, if_pos hc,
    if_neg (by simp)]

/-- The import-tail matcher on the canonical statement
`import NAME from "PATH"` (single spaces, double quotes). -/
theorem matchImportTail_std (n0 : Char) (name' : List Char) (p0 : Char)
    (prest : List Char)
    (hn : ∀ c ∈ (n0 :: name'), wordChar c = true)
    (hq : ∀ c ∈ (p0 :: prest), quoteChar c = false) :
    matchImportTail (' ' :: n0 :: (name' ++
        (' ' :: 'f' :: 'r' :: 'o' :: 'm' :: ' ' :: '"' :: ((p0 :: prest) ++ ['"']))))
      = some (n0 :: name', p0 :: prest, []) := by
  have hn0ws : wsChar n0 = false := wordChar_not_ws (hn n0 (List.mem_cons_self _ _))
  have hn' : ∀ c ∈ name', wordChar c = true :=
    fun c hc => hn c (List.mem_cons_of_mem n0 hc)
  unfold matchImportTail
  rw [eatWs1_cons (by decide), List.dropWhile_cons, if_neg (by rw [hn0ws]; simp),
    Option.some_bind]
  have hword : eatWord1 (n0 :: (name' ++
      (' ' :: 'f' :: 'r' :: 'o' :: 'm' :: ' ' :: '"' :: ((p0 :: prest) ++ ['"']))))
      = some (n0 :: name',
        ' ' :: 'f' :: 'r' :: 'o' :: 'm' :: ' ' :: '"' :: ((p0 :: prest) ++ ['"'])) := by
    unfold eatWord1
    rw [List.takeWhile_cons, if_pos (hn n0 (List.mem_cons_self _ _)),
      takeWhile_append_cons wordChar name' ' ' _ hn' (by decide),
      List.dropWhile_cons, if_pos (hn n0 (List.mem_cons_self _ _)),
      dropWhile_append_cons wordChar name' ' ' _ hn' (by decide),
      if_neg (by simp)]
  rw [hword, Option.some_bind, eatWs1_cons (by decide), List.dropWhile_cons,
    if_neg (by decide), Option.some_bind]
  have hlit : eatLit (("from").toList)
      ('f' :: 'r' :: 'o' :: 'm' :: ' ' :: '"' :: ((p0 :: prest) ++ ['"']))
      = some (' ' :: '"' :: ((p0 :: prest) ++ ['"'])) := by
    unfold eatLit
    rw [if_pos (by simp [List.isPrefixOf])]
    rfl
  rw [hlit, Option.some_bind, eatWs1_cons (by decide), List.dropWhile_cons,
    if_neg (by decide), Option.some_bind]
  dsimp only
  rw [if_pos (by decide)]
  have hbody : eatBody1 quoteChar ((p0 :: prest) ++ ['"'])
      = some (p0 :: prest, []) := by
    unfold eatBody1
    rw [takeWhile_append_cons (fun c => !quoteChar c) (p0 :: prest) '"' _
        (fun x hx => by simp [hq x hx]) (by decide),
      dropWhile_append_cons (fun c => !quoteChar c) (p0 :: prest) '"' _
        (fun x hx => by simp [hq x hx]) (by decide),
      if_neg (by simp)]
  rw [hbody, Option.some_bind]

/-- The MDX pass rewrites the canonical import statement into a markdown
image link with the base URL. -/
theorem mdxSubF_import (fuel : Nat) (n0 : Char) (name' : List Char) (p0 : Char)
    (prest : List Char)
    (hn : ∀ c ∈ (n0 :: name'), wordChar c = true)
    (hq : ∀ c ∈ (p0 :: prest), quoteChar c = false) :
    mdxSubF (fuel + 1) ('i' :: 'm' :: 'p' :: 'o' :: 'r' :: 't' :: ' ' :: n0 ::
        (name' ++
          (' ' :: 'f' :: 'r' :: 'o' :: 'm' :: ' ' :: '"' :: ((p0 :: prest) ++ ['"']))))
      = ('!' :: '[' :: (n0 :: name')) ++ (']' :: '(' :: baseUrl) ++
          stripRelMarks (p0 :: prest) ++ [')'] := by
  unfold mdxSubF
  rw [if_pos (by simp [List.isPrefixOf])]
  have hdrop : ('i' :: 'm' :: 'p' :: 'o' :: 'r' :: 't' :: ' ' :: n0 ::
      (name' ++
        (' ' :: 'f' :: 'r' :: 'o' :: 'm' :: ' ' :: '"' :: ((p0 :: prest) ++ ['"'])))).drop 6
      = ' ' :: n0 :: (name' ++
        (' ' :: 'f' :: 'r' :: 'o' :: 'm' :: ' ' :: '"' :: ((p0 :: prest) ++ ['"']))) := rfl
  rw [hdrop, matchImportTail_std n0 name' p0 prest hn hq]
  dsimp only
  rw [mdxSubF_nil]

/-- The markdown-image pass rewrites a well-formed non-absolute
reference. -/
theorem mdImageSubF_rewrite (fuel : Nat) (alt : List Char)
    (halt : ∀ c ∈ alt, c ≠ ']' ∧ c ≠ '\n') (p0 : Char) (prest : List Char)
    (h0 : (p0 = 'h' || p0 = 't' || p0 = 'p') = false)
    (hp : ∀ c ∈ prest, c ≠ ')' ∧ c ≠ '\n') :
    mdImageSubF (fuel + 1)
        ('!' :: '[' :: (alt ++ ']' :: '(' :: ((p0 :: prest) ++ [')'])))
      = ('!' :: '[' :: alt) ++ (']' :: '(' :: baseUrl) ++
          stripRelMarks (p0 :: prest) ++ [')'] := by
  unfold mdImageSubF
  rw [if_pos (by simp [List.isPrefixOf])]
  have hdrop : ('!' :: '[' :: (alt ++ ']' :: '(' :: ((p0 :: prest) ++ [')']))).drop 2
      = alt ++ ']' :: '(' :: ((p0 :: prest) ++ [')']) := rfl
  rw [hdrop,
    findAltPath_yes alt halt ((p0 :: prest) ++ [')']) (p0 :: prest) []
      (tryMdPath_yes p0 prest [] h0 hp) []]
  dsimp only
  rw [mdImageSubF_nil]
  simp


/-- **C2 (counterexample)**: `![a](pic.png)` has a non-absolute path, yet
`process_image_paths` leaves it unchanged: the regex class `[^http]`
excludes any path whose *first character* is `h`, `t` or `p`, and
`pic.png` starts with `p`. -/
theorem c2_counterexample :
    processImagePaths ("![a](pic.png)") = "![a](pic.png)" ∧
    ("![a](pic.png)" : String) ≠ "![a](https://docs.astro.build/pic.png)" :=
  ⟨by decide, by decide⟩

/-- **C2 (amended)**: a standard markdown image reference is rewritten to
the base URL (with leading `./`, `../`, `~` marks stripped and the alt
text preserved) exactly when the path's first character is not `h`, `t`
or `p` (the members of the `[^http]` class) — not for all non-absolute
paths.  The side conditions keep the reference well-formed and outside
the reach of the other two rewrite passes. -/
theorem c2_md_image_rewrite (alt : List Char) (p0 : Char) (prest : List Char)
    (h0 : (p0 = 'h' || p0 = 't' || p0 = 'p') = false)
    (halt : ∀ c ∈ alt, c ≠ ']' ∧ c ≠ '\n' ∧ quoteChar c = false ∧ c ≠ '<')
    (hpath : ∀ c ∈ (p0 :: prest), c ≠ ')' ∧ c ≠ '\n' ∧ quoteChar c = false ∧ c ≠ '<') :
    processImagePathsL (('!' :: '[' :: alt) ++ (']' :: '(' :: (p0 :: prest)) ++ [')'])
      = ('!' :: '[' :: alt) ++ (']' :: '(' :: baseUrl) ++
          stripRelMarks (p0 :: prest) ++ [')'] := by
  have hshape : (('!' :: '[' :: alt) ++ (']' :: '(' :: (p0 :: prest)) ++ [')'])
      = '!' :: '[' :: (alt ++ ']' :: '(' :: ((p0 :: prest) ++ [')'])) := by
    rw [List.append_assoc]
    rfl
  have hq : ∀ c ∈ '!' :: '[' :: (alt ++ ']' :: '(' :: ((p0 :: prest) ++ [')'])),
      quoteChar c = false := by
    intro c hc
    rcases List.mem_cons.mp hc with rfl | hc
    · decide
    rcases List.mem_cons.mp hc with rfl | hc
    · decide
    rcases List.mem_append.mp hc with hc | hc
    · exact (halt c hc).2.2.1
    rcases List.mem_cons.mp hc with rfl | hc
    · decide
    rcases List.mem_cons.mp hc with rfl | hc
    · decide
    rcases List.mem_append.mp hc with hc | hc
    · exact (hpath c hc).2.2.1
    rcases List.mem_singleton.mp hc with rfl
    decide
  have hlt : ∀ c ∈ ('!' :: '[' :: alt) ++ (']' :: '(' :: baseUrl) ++
      stripRelMarks (p0 :: prest) ++ [')'], c ≠ '<' := by
    intro c hc
    rcases List.mem_append.mp hc with hc | hc
    · rcases List.mem_append.mp hc with hc | hc
      · rcases List.mem_append.mp hc with hc | hc
        · rcases List.mem_cons.mp hc with rfl | hc
          · decide
          rcases List.mem_cons.mp hc with rfl | hc
          · decide
          · exact (halt c hc).2.2.2
        · rcases List.mem_cons.mp hc with rfl | hc
          · decide
          rcases List.mem_cons.mp hc with rfl | hc
          · decide
          · exact (by decide : ∀ x ∈ baseUrl, x ≠ '<') c hc
      · exact (hpath c ((List.dropWhile_sublist _).subset hc)).2.2.2
    · rcases List.mem_singleton.mp hc with rfl
      decide
  unfold processImagePathsL
  rw [hshape, mdxSub_id _ hq]
  have h2 : mdImageSub ('!' :: '[' :: (alt ++ ']' :: '(' :: ((p0 :: prest) ++ [')'])))
      = ('!' :: '[' :: alt) ++ (']' :: '(' :: baseUrl) ++
          stripRelMarks (p0 :: prest) ++ [')'] := by
    unfold mdImageSub
    rw [List.length_cons]
    exact mdImageSubF_rewrite _ alt
      (fun c hc => ⟨(halt c hc).1, (halt c hc).2.1⟩) p0 prest h0
      (fun c hc => ⟨(hpath c (List.mem_cons_of_mem p0 hc)).1,
        (hpath c (List.mem_cons_of_mem p0 hc)).2.1⟩)
  rw [h2]
  exact componentSub_id _ hlt

/-- Witness for C2 at `![a](./x)`. -/
theorem c2_md_image_rewrite_witness :
    processImagePathsL (('!' :: '[' :: [('a' : Char)]) ++
        (']' :: '(' :: ('.' :: ['/', 'x'])) ++ [')'])
      = ('!' :: '[' :: [('a' : Char)]) ++ (']' :: '(' :: baseUrl) ++
          stripRelMarks ('.' :: ['/', 'x']) ++ [')'] :=
  c2_md_image_rewrite ['a'] '.' ['/', 'x'] (by decide) (by decide) (by decide)

/-- **C8 (counterexample)**: the whole of `process_image_paths` can alter
a markdown image reference whose target begins with `http`: when the alt
text itself contains an import statement, the MDX pass rewrites inside
it. -/
theorem c8_counterexample :
    processImagePaths ("![import A from \"x\"](http://y)")
      = "![![A](https://docs.astro.build/x)](http://y)" ∧
    ("![![A](https://docs.astro.build/x)](http://y)" : String)
      ≠ "![import A from \"x\"](http://y)" :=
  ⟨by decide, by decide⟩

/-- **C8 (amended)**: a markdown image reference whose target begins with
`http` is left character-for-character unaltered by
`process_image_paths`, provided its alt text and path contain no quote
and no `<` (so the import/component passes cannot fire inside the
reference).  In particular the markdown-image pass itself never rewrites
a reference whose target starts with `h`. -/
theorem c8_http_untouched (alt : List Char) (path : List Char)
    (hpre : (("http").toList).isPrefixOf path = true)
    (halt : ∀ c ∈ alt, c ≠ ']' ∧ quoteChar c = false ∧ c ≠ '<')
    (hpath : ∀ c ∈ path, c ≠ ']' ∧ quoteChar c = false ∧ c ≠ '<') :
    processImagePathsL (('!' :: '[' :: alt) ++ (']' :: '(' :: path) ++ [')'])
      = ('!' :: '[' :: alt) ++ (']' :: '(' :: path) ++ [')'] := by
  obtain ⟨r, hr⟩ := List.isPrefixOf_iff_prefix.mp hpre
  have hassoc : (('!' :: '[' :: alt) ++ (']' :: '(' :: path) ++ [')'])
      = ('!' :: '[' :: alt) ++ (']' :: '(' :: (path ++ [')'])) := by
    rw [List.append_assoc]
    rfl
  have hq : ∀ c ∈ ('!' :: '[' :: alt) ++ (']' :: '(' :: (path ++ [')'])),
      quoteChar c = false := by
    intro c hc
    rcases List.mem_append.mp hc with hc | hc
    · rcases List.mem_cons.mp hc with rfl | hc
      · decide
      rcases List.mem_cons.mp hc with rfl | hc
      · decide
      · exact (halt c hc).2.1
    rcases List.mem_cons.mp hc with rfl | hc
    · decide
    rcases List.mem_cons.mp hc with rfl | hc
    · decide
    rcases List.mem_append.mp hc with hc | hc
    · exact (hpath c hc).2.1
    rcases List.mem_singleton.mp hc with rfl
    decide
  have hlt : ∀ c ∈ ('!' :: '[' :: alt) ++ (']' :: '(' :: (path ++ [')'])),
      c ≠ '<' := by
    intro c hc
    rcases List.mem_append.mp hc with hc | hc
    · rcases List.mem_cons.mp hc with rfl | hc
      · decide
      rcases List.mem_cons.mp hc with rfl | hc
      · decide
      · exact (halt c hc).2.2
    rcases List.mem_cons.mp hc with rfl | hc
    · decide
    rcases List.mem_cons.mp hc with rfl | hc
    · decide
    rcases List.mem_append.mp hc with hc | hc
    · exact (hpath c hc).2.2
    rcases List.mem_singleton.mp hc with rfl
    decide
  have hno : NoMdCand (('!' :: '[' :: alt) ++ (']' :: '(' :: (path ++ [')']))) := by
    have hA : ']' ∉ ('!' :: '[' :: alt) := by
      intro hm
      rcases List.mem_cons.mp hm with h1 | hm
      · exact absurd h1 (by decide)
      rcases List.mem_cons.mp hm with h1 | hm
      · exact absurd h1 (by decide)
      · exact (halt _ hm).1 rfl
    have hB : ']' ∉ (path ++ [')']) := by
      intro hm
      rcases List.mem_append.mp hm with hm | hm
      · exact (hpath _ hm).1 rfl
      · exact absurd (List.mem_singleton.mp hm) (by decide)
    have hB0 : tryMdPath (path ++ [')']) = none := by
      rw [← hr]
      exact tryMdPath_h _
    exact noMdCand_of_shape ('!' :: '[' :: alt) (path ++ [')']) hA hB hB0
  unfold processImagePathsL
  rw [hassoc, mdxSub_id _ hq, mdImageSub_id _ hno]
  exact componentSub_id _ hlt

/-- Witness for C8 at `![a](http://y)`. -/
theorem c8_http_untouched_witness :
    processImagePathsL (('!' :: '[' :: [('a' : Char)]) ++
        (']' :: '(' :: (("http://y").toList)) ++ [')'])
      = ('!' :: '[' :: [('a' : Char)]) ++
        (']' :: '(' :: (("http://y").toList)) ++ [')'] :=
  c8_http_untouched ['a'] (("http://y").toList) (by decide) (by decide) (by decide)

/-- **C10**: every statement `import Name from "path"` (word-character
name, quote-free path) is rewritten by `process_image_paths` into the
markdown image reference `![Name](https://docs.astro.build/<path with
leading ./, ../, ~ stripped>)`, whether or not the path refers to an
image.  The path-side conditions keep the produced reference outside the
reach of the later two passes, which then leave it intact. -/
theorem c10_import_rewrite (n0 : Char) (name' : List Char) (p0 : Char)
    (prest : List Char)
    (hn : ∀ c ∈ (n0 :: name'), wordChar c = true)
    (hpath : ∀ c ∈ (p0 :: prest), quoteChar c = false ∧ c ≠ ']' ∧ c ≠ '<') :
    processImagePathsL ('i' :: 'm' :: 'p' :: 'o' :: 'r' :: 't' :: ' ' :: n0 ::
        (name' ++
          (' ' :: 'f' :: 'r' :: 'o' :: 'm' :: ' ' :: '"' :: ((p0 :: prest) ++ ['"']))))
      = ('!' :: '[' :: (n0 :: name')) ++ (']' :: '(' :: baseUrl) ++
          stripRelMarks (p0 :: prest) ++ [')'] := by
  have h1 : mdxSub ('i' :: 'm' :: 'p' :: 'o' :: 'r' :: 't' :: ' ' :: n0 ::
      (name' ++
        (' ' :: 'f' :: 'r' :: 'o' :: 'm' :: ' ' :: '"' :: ((p0 :: prest) ++ ['"']))))
      = ('!' :: '[' :: (n0 :: name')) ++ (']' :: '(' :: baseUrl) ++
          stripRelMarks (p0 :: prest) ++ [')'] := by
    unfold mdxSub
    rw [List.length_cons]
    exact mdxSubF_import _ n0 name' p0 prest hn (fun c hc => (hpath c hc).1)
  have hassoc : (('!' :: '[' :: (n0 :: name')) ++ (']' :: '(' :: baseUrl) ++
        stripRelMarks (p0 :: prest) ++ [')'])
      = ('!' :: '[' :: (n0 :: name')) ++
          (']' :: '(' :: (baseUrl ++ (stripRelMarks (p0 :: prest) ++ [')']))) := by
    rw [List.append_assoc, List.append_assoc]
    rfl
  have hno : NoMdCand (('!' :: '[' :: (n0 :: name')) ++
      (']' :: '(' :: (baseUrl ++ (stripRelMarks (p0 :: prest) ++ [')'])))) := by
    have hA : ']' ∉ ('!' :: '[' :: (n0 :: name')) := by
      intro hm
      rcases List.mem_cons.mp hm with h1 | hm
      · exact absurd h1 (by decide)
      rcases List.mem_cons.mp hm with h1 | hm
      · exact absurd h1 (by decide)
      · exact wordChar_ne (hn _ hm) ']' (by decide) rfl
    have hB : ']' ∉ (baseUrl ++ (stripRelMarks (p0 :: prest) ++ [')'])) := by
      intro hm
      rcases List.mem_append.mp hm with hm | hm
      · exact absurd hm (by decide)
      rcases List.mem_append.mp hm with hm | hm
      · exact (hpath _ ((List.dropWhile_sublist _).subset hm)).2.1 rfl
      · exact absurd (List.mem_singleton.mp hm) (by decide)
    exact noMdCand_of_shape ('!' :: '[' :: (n0 :: name'))
      (baseUrl ++ (stripRelMarks (p0 :: prest) ++ [')'])) hA hB (tryMdPath_baseUrl _)
  have hlt : ∀ c ∈ ('!' :: '[' :: (n0 :: name')) ++
      (']' :: '(' :: (baseUrl ++ (stripRelMarks (p0 :: prest) ++ [')']))), c ≠ '<' := by
    intro c hc
    rcases List.mem_append.mp hc with hc | hc
    · rcases List.mem_cons.mp hc with rfl | hc
      · decide
      rcases List.mem_cons.mp hc with rfl | hc
      · decide
      · exact wordChar_ne (hn _ hc) '<' (by decide)
    rcases List.mem_cons.mp hc with rfl | hc
    · decide
    rcases List.mem_cons.mp hc with rfl | hc
    · decide
    rcases List.mem_append.mp hc with hc | hc
    · exact (by decide : ∀ x ∈ baseUrl, x ≠ '<') c hc
    rcases List.mem_append.mp hc with hc | hc
    · exact (hpath _ ((List.dropWhile_sublist _).subset hc)).2.2
    · rcases List.mem_singleton.mp hc with rfl
      decide
  unfold processImagePathsL
  rw [h1, hassoc, mdImageSub_id _ hno]
  exact componentSub_id _ hlt

/-- Witness for C10 at `import A from "x"`. -/
theorem c10_import_rewrite_witness :
    processImagePathsL ('i' :: 'm' :: 'p' :: 'o' :: 'r' :: 't' :: ' ' :: 'A' ::
        (([] : List Char) ++
          (' ' :: 'f' :: 'r' :: 'o' :: 'm' :: ' ' :: '"' :: ((['x'] : List Char) ++ ['"']))))
      = ('!' :: '[' :: (['A'] : List Char)) ++ (']' :: '(' :: baseUrl) ++
          stripRelMarks (['x'] : List Char) ++ [')'] :=
  c10_import_rewrite 'A' [] 'x' [] (by decide) (by decide)

end AstroPdf
